import Mathlib

/-!
# Package pool layout of `debian/repository.go`

A shallow embedding of `Repository.PoolPath`, `Repository.LinkFromPool`,
`Repository.PublicPath`, `Repository.MkDir` and `Repository.CreateFile`
together with the library routines they call (`path/filepath` on a Unix
target, `strings`, string slicing, and the `os` calls on an explicit
file-system state), followed by theorems about them.

A Go string is a sequence of bytes; it is embedded as a list whose elements
stand for the bytes.  The embedded code compares elements only with the
bytes of `/`, `.`, `l`, `i` and `b`, and `len` is the length of the list.
-/

set_option autoImplicit false

namespace Debian

/-! ## Strings -/

/-- Go `string`: the list of its bytes. -/
abbrev Str := List Char

/-- Go slice expression `s[lo:hi]`; `none` stands for the run-time panic
"slice bounds out of range". -/
def slice (s : Str) (lo hi : Nat) : Option Str :=
  if lo ≤ hi ∧ hi ≤ s.length then some ((s.take hi).drop lo) else none

/-- Go `strings.HasPrefix(s, p)`. -/
def HasPrefix (s p : Str) : Bool :=
  decide (p.length ≤ s.length) && decide (s.take p.length = p)

/-- Go `strings.Join(elems, sep)`. -/
def stringsJoin : List Str → Str → Str
  | [], _ => []
  | [a], _ => a
  | a :: b :: rest, sep => a ++ sep ++ stringsJoin (b :: rest) sep

/-! ## `path/filepath` (Unix) -/

/-- Go `os.IsPathSeparator` on Unix. -/
def IsPathSeparator (c : Char) : Bool := c == '/'

/-- Negation of `IsPathSeparator`, the test of the element-scanning loops. -/
def notSeparator (c : Char) : Bool := !IsPathSeparator c

/-- Go `filepath.Base`: the last element of `path`, after removing trailing
separators; `"."` for the empty path and `"/"` for a path of separators. -/
def Base (path : Str) : Str :=
  if path = [] then ['.']
  else
    -- strip trailing slashes
    let path := path.rdropWhile IsPathSeparator
    -- find the last element
    let path := path.rtakeWhile notSeparator
    -- if empty now, it had only slashes
    if path = [] then ['/'] else path

/-- The inner loop of the `..` case of `filepath.Clean`, entered after
`out.w--` with `w` the decremented write index:
`for out.w > dotdot && !os.IsPathSeparator(out.index(out.w)) { out.w-- }`.
Returns the final write index. -/
def backtrack (buf : Str) (dotdot : Nat) : Nat → Nat
  | 0 => 0
  | w + 1 =>
    if dotdot < w + 1 ∧ notSeparator (buf.getD (w + 1) '/') = true then
      backtrack buf dotdot w
    else w + 1

/-- The main loop of `filepath.Clean`.  The unread input `path[r:]` is the
list argument, `out` is the written part `buf[0:w]` of the output buffer.
One unit of fuel is spent per iteration; every iteration reads at least one
byte, so the length of the input is enough fuel. -/
def cleanLoop (rooted : Bool) : Nat → Str → Str → Nat → Str
  | 0, _, out, _ => out
  | _ + 1, [], out, _ => out
  | fuel + 1, c :: t, out, dotdot =>
    if IsPathSeparator c = true then
      -- empty path element
      cleanLoop rooted fuel t out dotdot
    else if c = '.' ∧ (t = [] ∨ t.head? = some '/') then
      -- . element
      cleanLoop rooted fuel t out dotdot
    else if c = '.' ∧ t.head? = some '.' ∧ (t.tail = [] ∨ t.tail.head? = some '/') then
      -- .. element: remove to last separator
      if dotdot < out.length then
        -- can backtrack
        cleanLoop rooted fuel t.tail (out.take (backtrack out dotdot (out.length - 1))) dotdot
      else if rooted = false then
        -- cannot backtrack, but not rooted, so append .. element
        let out1 := (if 0 < out.length then out ++ ['/'] else out) ++ ['.', '.']
        cleanLoop rooted fuel t.tail out1 out1.length
      else
        cleanLoop rooted fuel t.tail out dotdot
    else
      -- real path element: add slash if needed, then copy the element
      let out1 :=
        if (rooted = true ∧ out.length ≠ 1) ∨ (rooted = false ∧ out.length ≠ 0) then out ++ ['/']
        else out
      cleanLoop rooted fuel ((c :: t).dropWhile notSeparator)
        (out1 ++ (c :: t).takeWhile notSeparator) dotdot

/-- Go `filepath.Clean` on Unix (no volume name, `FromSlash` is the identity). -/
def Clean (path : Str) : Str :=
  match path with
  | [] => ['.']
  | c :: t =>
    let rooted := IsPathSeparator c
    let out :=
      if rooted = true then cleanLoop true path.length t ['/'] 1
      else cleanLoop false path.length path [] 0
    -- turn empty string into "."
    if out = [] then ['.'] else out

/-- Go `filepath.Join`: the elements from the first non-empty one on, joined
with the separator and cleaned; the empty string if all are empty. -/
def Join (elem : List Str) : Str :=
  match elem.dropWhile (fun e => decide (e = [])) with
  | [] => []
  | e :: rest => Clean (stringsJoin (e :: rest) ['/'])

/-! ## Results and errors -/

/-- Error numbers of the modelled system calls. -/
inductive Errno
  | ENOENT
  | EEXIST
  | ENOTDIR
  | EPERM
  | ELOOP
  | EACCES
  | EISDIR
  deriving DecidableEq, Repr

/-- Go `error` values that the embedded code can return. -/
inductive GoError
  /-- The value of `fmt.Errorf` with this message. -/
  | errorf (msg : Str)
  /-- An `*os.PathError`. -/
  | pathError (op : Str) (path : Str) (errno : Errno)
  /-- An `*os.LinkError`. -/
  | linkError (op : Str) (old new : Str) (errno : Errno)
  deriving DecidableEq, Repr

/-- How a Go call ends: it returns its results, or it panics. -/
inductive Outcome (α : Type)
  | ret (a : α)
  | fault
  deriving DecidableEq, Repr

/-! ## `Repository` -/

/-- Go `type Repository struct { RootPath string }`. -/
structure Repository where
  RootPath : Str
  deriving DecidableEq, Repr

/-- The error of `PoolPath`: `fmt.Errorf("filename %s is invalid", filename)`. -/
def invalidFilename (filename : Str) : GoError :=
  .errorf ("filename ".toList ++ filename ++ " is invalid".toList)

/-- The error of `LinkFromPool`: `fmt.Errorf("package source %s too short", source)`. -/
def sourceTooShort (source : Str) : GoError :=
  .errorf ("package source ".toList ++ source ++ " too short".toList)

/-- Go `(*Repository).PoolPath`, a pair `(string, error)` or a panic of the
slice expressions `hashMD5[0:2]`, `hashMD5[2:4]`. -/
def PoolPath (r : Repository) (filename hashMD5 : Str) : Outcome (Str × Option GoError) :=
  let filename := Base filename
  if filename = ['.'] ∨ filename = ['/'] then
    .ret ([], some (invalidFilename filename))
  else
    match slice hashMD5 0 2, slice hashMD5 2 4 with
    | some h1, some h2 => .ret (Join [r.RootPath, "pool".toList, h1, h2, filename], none)
    | _, _ => .fault

/-! ## The file system and the `os` calls

The state of the file system seen through path names: which names denote a
directory or a file, and the inode and content of each file.  Names are
compared as strings; the embedded code passes only names produced by
`filepath.Join`, which are lexically clean.  Symbolic links, permissions and
resource limits are not part of the state. -/

/-- What a path name denotes: a directory, or a file with its inode number. -/
inductive Node
  | dir
  | file (ino : Nat)
  deriving DecidableEq, Repr

/-- File-system state: the node each name denotes and the content of each inode. -/
structure FS where
  entry : Str → Option Node
  content : Nat → Str

/-- The state with one more directory entry `name`. -/
def FS.insert (fs : FS) (name : Str) (n : Node) : FS :=
  { fs with entry := fun q => if q = name then some n else fs.entry q }

/-- The name of the directory holding `path`, as `os.MkdirAll` computes it:
skip trailing separators, scan backward over the last element to index `j`,
and take `path[:j-1]` when `j > 1`.  `none` when `j ≤ 1`: the entry lies
directly in the root or in the working directory, which always exist. -/
def parentDir (path : Str) : Option Str :=
  let j := ((path.rdropWhile IsPathSeparator).rdropWhile notSeparator).length
  if 1 < j then some (path.take (j - 1)) else none

/-- Go `os.Stat` (and `os.Lstat`, there being no symbolic links). -/
def Stat (name : Str) (fs : FS) : Except GoError Node :=
  match fs.entry name with
  | some n => .ok n
  | none => .error (.pathError "stat".toList name .ENOENT)

/-- Go `os.Mkdir`: fails if `name` exists or its parent is not a directory. -/
def Mkdir (name : Str) (fs : FS) : Option GoError × FS :=
  match fs.entry name with
  | some _ => (some (.pathError "mkdir".toList name .EEXIST), fs)
  | none =>
    match parentDir name with
    | none => (none, fs.insert name .dir)
    | some p =>
      match fs.entry p with
      | some .dir => (none, fs.insert name .dir)
      | some (.file _) => (some (.pathError "mkdir".toList name .ENOTDIR), fs)
      | none => (some (.pathError "mkdir".toList name .ENOENT), fs)

/-- Go `os.MkdirAll`, with one unit of fuel per nested call.  The nested call
is on a strictly shorter path, so `path.length + 1` is enough fuel and the
first equation is not reached from `MkdirAll`. -/
def MkdirAllAux : Nat → Str → FS → Option GoError × FS
  | 0, path, fs => (some (.pathError "mkdir".toList path .ELOOP), fs)
  | fuel + 1, path, fs =>
    -- fast path: if we can tell whether path is a directory or file, stop
    match Stat path fs with
    | .ok .dir => (none, fs)
    | .ok (.file _) => (some (.pathError "mkdir".toList path .ENOTDIR), fs)
    | .error _ =>
      -- slow path: make sure parent exists and then call Mkdir for path
      let r :=
        match parentDir path with
        | some p => MkdirAllAux fuel p fs
        | none => (none, fs)
      match r with
      | (some err, fs1) => (some err, fs1)
      | (none, fs1) =>
        match Mkdir path fs1 with
        | (none, fs2) => (none, fs2)
        | (some err, fs2) =>
          -- double-check that the directory does not exist
          match Stat path fs2 with
          | .ok .dir => (none, fs2)
          | _ => (some err, fs2)

/-- Go `os.MkdirAll(path, 0755)`. -/
def MkdirAll (path : Str) (fs : FS) : Option GoError × FS :=
  MkdirAllAux (path.length + 1) path fs

/-- Go `os.Link(oldname, newname)`: a new directory entry for the inode of
`oldname`.  Fails if `oldname` is missing or a directory, if `newname`
exists, or if the parent of `newname` is not a directory. -/
def Link (oldname newname : Str) (fs : FS) : Option GoError × FS :=
  match fs.entry oldname with
  | none => (some (.linkError "link".toList oldname newname .ENOENT), fs)
  | some .dir => (some (.linkError "link".toList oldname newname .EPERM), fs)
  | some (.file i) =>
    match fs.entry newname with
    | some _ => (some (.linkError "link".toList oldname newname .EEXIST), fs)
    | none =>
      match parentDir newname with
      | none => (none, fs.insert newname (.file i))
      | some p =>
        match fs.entry p with
        | some .dir => (none, fs.insert newname (.file i))
        | some (.file _) => (some (.linkError "link".toList oldname newname .ENOTDIR), fs)
        | none => (some (.linkError "link".toList oldname newname .ENOENT), fs)

/-- The `os` calls `LinkFromPool` makes, in order. -/
inductive OsCall
  | mkdirAll (path : Str)
  | stat (name : Str)
  | link (oldname newname : Str)
  deriving DecidableEq, Repr

/-- What a run of `LinkFromPool` leaves behind: how the call ended, the
file-system state, and the `os` calls it made. -/
structure LinkRun where
  out : Outcome (Str × Option GoError)
  fs : FS
  calls : List OsCall

/-- Go `(*Repository).LinkFromPool` run on the state `fs`. -/
def LinkFromPool (r : Repository) (fs : FS)
    (pfx component filename hashMD5 source : Str) : LinkRun :=
  match PoolPath r filename hashMD5 with
  | .fault => ⟨.fault, fs, []⟩
  | .ret (_, some err) => ⟨.ret ([], some err), fs, []⟩
  | .ret (sourcePath, none) =>
    if source.length < 2 then
      ⟨.ret ([], some (sourceTooShort source)), fs, []⟩
    else
      match (if HasPrefix source "lib".toList = true then slice source 0 4 else slice source 0 1) with
      | none => ⟨.fault, fs, []⟩
      | some subdir =>
        let baseName := Base filename
        let relPath := Join ["pool".toList, component, subdir, source, baseName]
        let poolPath :=
          Join [r.RootPath, "public".toList, pfx, "pool".toList, component, subdir, source]
        match MkdirAll poolPath fs with
        | (some err, fs1) => ⟨.ret ([], some err), fs1, [.mkdirAll poolPath]⟩
        | (none, fs1) =>
          match Stat (Join [poolPath, baseName]) fs1 with
          | .ok _ =>
            -- already exists, skip
            ⟨.ret (relPath, none), fs1, [.mkdirAll poolPath, .stat (Join [poolPath, baseName])]⟩
          | .error _ =>
            match Link sourcePath (Join [poolPath, baseName]) fs1 with
            | (err, fs2) =>
              ⟨.ret (relPath, err), fs2,
                [.mkdirAll poolPath, .stat (Join [poolPath, baseName]),
                  .link sourcePath (Join [poolPath, baseName])]⟩

/-! ## Names used in the statements -/

/-- The bucket of `LinkFromPool`: `source[:4]` if `source` starts with `lib`,
`source[:1]` otherwise; `none` when the slice expression panics. -/
def bucket (source : Str) : Option Str :=
  if HasPrefix source "lib".toList = true then slice source 0 4 else slice source 0 1

/-- The directory `LinkFromPool` creates: `poolPath` in the source. -/
def publishedDir (r : Repository) (pfx component subdir source : Str) : Str :=
  Join [r.RootPath, "public".toList, pfx, "pool".toList, component, subdir, source]

/-- The name `LinkFromPool` probes and links: `filepath.Join(poolPath, baseName)`. -/
def publishedFile (r : Repository) (pfx component subdir source filename : Str) : Str :=
  Join [publishedDir r pfx component subdir source, Base filename]

/-- The relative path `LinkFromPool` returns: `relPath` in the source. -/
def relPathOf (component subdir source filename : Str) : Str :=
  Join ["pool".toList, component, subdir, source, Base filename]

/-- A path element: non-empty and free of separators. -/
def isElem (s : Str) : Prop := s ≠ [] ∧ ∀ c ∈ s, c ≠ '/'

/-- An ordinary path element: a non-empty name without separator, other than
`.` and `..`. -/
def normalElem (s : Str) : Prop :=
  s ≠ [] ∧ (∀ c ∈ s, c ≠ '/') ∧ s ≠ ['.'] ∧ s ≠ ['.', '.']

instance (s : Str) : Decidable (normalElem s) := by
  unfold normalElem; infer_instance

/-- The input of `Clean` that follows an element: nothing, or a separator. -/
def atBoundary (rest : Str) : Prop := rest = [] ∨ rest.head? = some '/'

/-- The output buffer after the "add slash if needed" step. -/
def withSlash (rooted : Bool) (out : Str) : Str :=
  if (rooted = true ∧ out.length ≠ 1) ∨ (rooted = false ∧ out.length ≠ 0) then out ++ ['/']
  else out

/-- A clean path: ordinary elements separated by single separators, after a
leading separator when `rooted`. -/
def pathOf (rooted : Bool) (segs : List Str) : Str :=
  (if rooted = true then ['/'] else []) ++ stringsJoin segs ['/']

/-- The pool layout in the words of the specification:
`<root>/pool/<hash[0:2]>/<hash[2:4]>/<basename>`, five segments separated by `/`. -/
def poolLayout (root hashMD5 base : Str) : Str :=
  root ++ ['/'] ++ "pool".toList ++ ['/'] ++ hashMD5.take 2 ++ ['/'] ++
    (hashMD5.take 4).drop 2 ++ ['/'] ++ base

/-- The bucket in the words of the specification: the first four bytes of
`source` if it starts with `lib`, its first byte otherwise. -/
def bucketSpec (source : Str) : Str :=
  if "lib".toList <+: source then source.take 4 else source.take 1

/-- The published relative path in the words of the specification:
`pool/<component>/<subdir>/<source>/<basename>`. -/
def publishedLayout (component subdir source base : Str) : Str :=
  "pool".toList ++ ['/'] ++ component ++ ['/'] ++ subdir ++ ['/'] ++ source ++ ['/'] ++ base

/-- A state holding one pool file, `/srv/pool/01/23/libfoo_1.0.deb`, inode 1. -/
def fsPool : FS :=
  { entry := fun p => if p = "/srv/pool/01/23/libfoo_1.0.deb".toList then some (.file 1) else none
    content := fun i => if i = 1 then "new".toList else [] }

/-- A state where the pool file is inode 1 and the published destination
already exists as another file, inode 2. -/
def fsStale : FS :=
  { entry := fun p =>
      if p = "/srv/pool/01/23/libfoo_1.0.deb".toList then some (.file 1)
      else if p = "/srv/public/squeeze/pool/main/libf/libfoo".toList then some .dir
      else if p = "/srv/public/squeeze/pool/main/libf/libfoo/libfoo_1.0.deb".toList then
        some (.file 2)
      else none
    content := fun i => if i = 1 then "new".toList else if i = 2 then "old".toList else [] }

/-- The digest of the examples. -/
def digest : Str := "0123456789abcdef0123456789abcdef".toList

/-- A state whose pool lies under the relative root `pool`: one pool file,
`pool/pool/01/23/libfoo_1.0.deb`, inode 1. -/
def fsRelative : FS :=
  { entry := fun p => if p = "pool/pool/01/23/libfoo_1.0.deb".toList then some (.file 1) else none
    content := fun i => if i = 1 then "new".toList else [] }

/-- The names along a directory path, as `os.MkdirAll` visits them: the path,
its parent, the parent of that, and so on, with one unit of fuel per step. -/
def dirChainAux : Nat → Str → List Str
  | 0, path => [path]
  | fuel + 1, path =>
    path :: (match parentDir path with
      | some p => dirChainAux fuel p
      | none => [])

/-- The names along a directory path: the path and all its parents. -/
def dirChain (path : Str) : List Str := dirChainAux (path.length + 1) path

/-! ## `LinkFromPool` on any operating system -/

/-- The answers of an operating system with state `σ` to the three `os` calls
of `LinkFromPool`. -/
structure OsCalls (σ : Type) where
  MkdirAll : Str → σ → Option GoError × σ
  Stat : Str → σ → Except GoError Node
  Link : Str → Str → σ → Option GoError × σ

/-- What a run of `LinkFromPoolOn` leaves behind. -/
structure LinkRunOn (σ : Type) where
  out : Outcome (Str × Option GoError)
  st : σ
  calls : List OsCall

/-- Go `(*Repository).LinkFromPool` with the answers of the `os` calls left
open: the body of `LinkFromPool` run on an operating system `os` in state `st`. -/
def LinkFromPoolOn {σ : Type} (os : OsCalls σ) (r : Repository) (st : σ)
    (pfx component filename hashMD5 source : Str) : LinkRunOn σ :=
  match PoolPath r filename hashMD5 with
  | .fault => ⟨.fault, st, []⟩
  | .ret (_, some err) => ⟨.ret ([], some err), st, []⟩
  | .ret (sourcePath, none) =>
    if source.length < 2 then
      ⟨.ret ([], some (sourceTooShort source)), st, []⟩
    else
      match (if HasPrefix source "lib".toList = true then slice source 0 4 else slice source 0 1) with
      | none => ⟨.fault, st, []⟩
      | some subdir =>
        let baseName := Base filename
        let relPath := Join ["pool".toList, component, subdir, source, baseName]
        let poolPath :=
          Join [r.RootPath, "public".toList, pfx, "pool".toList, component, subdir, source]
        match os.MkdirAll poolPath st with
        | (some err, st1) => ⟨.ret ([], some err), st1, [.mkdirAll poolPath]⟩
        | (none, st1) =>
          match os.Stat (Join [poolPath, baseName]) st1 with
          | .ok _ =>
            -- already exists, skip
            ⟨.ret (relPath, none), st1, [.mkdirAll poolPath, .stat (Join [poolPath, baseName])]⟩
          | .error _ =>
            match os.Link sourcePath (Join [poolPath, baseName]) st1 with
            | (err, st2) =>
              ⟨.ret (relPath, err), st2,
                [.mkdirAll poolPath, .stat (Join [poolPath, baseName]),
                  .link sourcePath (Join [poolPath, baseName])]⟩

/-- The operating system of the file-system model: `MkdirAll`, `Stat`, `Link`. -/
def modelOs : OsCalls FS :=
  { MkdirAll := MkdirAll, Stat := Stat, Link := Link }

/-- An operating system as it answers when the destination directory exists
but may not be searched: `MkdirAll` finds the directory, and `Stat` and `Link`
on a name inside it fail with `EACCES`. -/
def deniedOs : OsCalls Unit :=
  { MkdirAll := fun _ st => (none, st)
    Stat := fun name _ => .error (.pathError "stat".toList name .EACCES)
    Link := fun o n st => (some (.linkError "link".toList o n .EACCES), st) }

/-! ## More names used in the statements -/

/-- The output buffer of `Clean` when its loop ends, before the empty buffer is
turned into `.`. -/
def cleanBuf (path : Str) : Str :=
  match path with
  | [] => []
  | c :: t =>
    if IsPathSeparator c = true then cleanLoop true path.length t ['/'] 1
    else cleanLoop false path.length path [] 0

/-- Whether `Clean` treats the path as rooted: it begins with a separator. -/
def isRooted (path : Str) : Bool :=
  match path with
  | [] => false
  | c :: _ => IsPathSeparator c

/-! ## `PublicPath`, `MkDir` and `CreateFile` -/

/-- Go `(*Repository).PublicPath`. -/
def PublicPath (r : Repository) : Str :=
  Join [r.RootPath, "public".toList]

/-- Go `(*Repository).MkDir`: `os.MkdirAll(filepath.Join(r.RootPath, "public", path), 0755)`. -/
def MkDir (r : Repository) (path : Str) (fs : FS) : Option GoError × FS :=
  MkdirAll (Join [r.RootPath, "public".toList, path]) fs

/-- Go `os.Create(name)`: open for writing, creating or truncating the file.
The directory holding `name` is resolved first and must be a directory; then a
directory at `name` is refused, a file is truncated, and a missing entry is
created with the inode number `ino` that the file system allocates.  The
result is the inode of the opened file, or the error. -/
def Create (name : Str) (ino : Nat) (fs : FS) : Except GoError Nat × FS :=
  let opened : Except GoError Nat × FS :=
    match fs.entry name with
    | some .dir => (.error (.pathError "open".toList name .EISDIR), fs)
    | some (.file i) =>
      (.ok i, { fs with content := fun j => if j = i then [] else fs.content j })
    | none =>
      (.ok ino,
        { entry := fun q => if q = name then some (.file ino) else fs.entry q
          content := fun j => if j = ino then [] else fs.content j })
  match parentDir name with
  | none => opened
  | some p =>
    match fs.entry p with
    | some .dir => opened
    | some (.file _) => (.error (.pathError "open".toList name .ENOTDIR), fs)
    | none => (.error (.pathError "open".toList name .ENOENT), fs)

/-- Go `(*Repository).CreateFile`: `os.Create(filepath.Join(r.RootPath, "public", path))`. -/
def CreateFile (r : Repository) (path : Str) (ino : Nat) (fs : FS) : Except GoError Nat × FS :=
  Create (Join [r.RootPath, "public".toList, path]) ino fs

/-! ## States of the examples -/

/-- A state where `/srv/public/dists` is a directory and so is
`/srv/public/dists/Release`. -/
def fsReleaseDir : FS :=
  { entry := fun p =>
      if p = "/srv/public/dists".toList then some .dir
      else if p = "/srv/public/dists/Release".toList then some .dir
      else none
    content := fun _ => [] }

/-- The empty state: no entries. -/
def fsEmpty : FS :=
  { entry := fun _ => none
    content := fun _ => [] }

/-! # Theorems -/

/-! ## Lemmas on `Base` -/

theorem isPathSeparator_iff (c : Char) : IsPathSeparator c = true ↔ c = '/' := by
  simp [IsPathSeparator]

theorem notSeparator_iff (c : Char) : notSeparator c = true ↔ c ≠ '/' := by
  simp [notSeparator, IsPathSeparator]

theorem rtakeWhile_notSeparator_elem (p : Str) :
    ∀ c ∈ p.rtakeWhile notSeparator, c ≠ '/' := by
  intro c hc
  have := List.mem_rtakeWhile_imp hc
  exact (notSeparator_iff c).1 this

/-- The three shapes of a base name. -/
theorem Base_cases (path : Str) :
    Base path = ['.'] ∨ Base path = ['/'] ∨ isElem (Base path) := by
  unfold Base
  by_cases h : path = []
  · simp [h]
  · simp only [h, if_false]
    by_cases h2 : (path.rdropWhile IsPathSeparator).rtakeWhile notSeparator = []
    · simp [h2]
    · right; right
      simp only [h2, if_false]
      exact ⟨h2, rtakeWhile_notSeparator_elem _⟩

theorem Base_of_isElem (s : Str) (h : isElem s) : Base s = s := by
  obtain ⟨hne, hs⟩ := h
  unfold Base
  have h1 : s.rdropWhile IsPathSeparator = s := by
    rw [List.rdropWhile_eq_self_iff]
    intro hne2
    have := hs _ (List.getLast_mem hne2)
    simpa [IsPathSeparator] using this
  have h2 : s.rtakeWhile notSeparator = s := by
    rw [List.rtakeWhile_eq_self_iff]
    intro c hc
    exact (notSeparator_iff c).2 (hs c hc)
  simp [hne, h1, h2]

/-- Idempotence of `filepath.Base`. -/
theorem Base_idem (path : Str) : Base (Base path) = Base path := by
  rcases Base_cases path with h | h | h
  · rw [h]; decide
  · rw [h]; decide
  · exact Base_of_isElem _ h

theorem Base_separators (n : Nat) : Base (List.replicate (n + 1) '/') = ['/'] := by
  have h1 : (List.replicate (n + 1) '/').rdropWhile IsPathSeparator = [] := by
    rw [List.rdropWhile_eq_nil_iff]
    intro c hc
    rw [List.eq_of_mem_replicate hc]; rfl
  unfold Base
  rw [if_neg (by simp [List.replicate_succ])]
  simp only [h1]
  rfl


/-! ## `Clean` on paths of ordinary elements -/

theorem takeWhile_elem (s rest : Str) (hs : ∀ c ∈ s, c ≠ '/') (hr : atBoundary rest) :
    (s ++ rest).takeWhile notSeparator = s := by
  induction s with
  | nil =>
    rcases hr with h | h
    · simp [h]
    · cases rest with
      | nil => simp
      | cons d r =>
        simp only [List.head?_cons, Option.some.injEq] at h
        subst h
        simp [notSeparator, IsPathSeparator]
  | cons a s ih =>
    have ha : notSeparator a = true := (notSeparator_iff a).2 (hs a (List.mem_cons_self _ _))
    simp only [List.cons_append, List.takeWhile_cons, ha, if_true]
    rw [ih (fun c hc => hs c (List.mem_cons_of_mem _ hc))]

theorem dropWhile_elem (s rest : Str) (hs : ∀ c ∈ s, c ≠ '/') (hr : atBoundary rest) :
    (s ++ rest).dropWhile notSeparator = rest := by
  induction s with
  | nil =>
    rcases hr with h | h
    · simp [h]
    · cases rest with
      | nil => simp
      | cons d r =>
        simp only [List.head?_cons, Option.some.injEq] at h
        subst h
        simp [notSeparator, IsPathSeparator]
  | cons a s ih =>
    have ha : notSeparator a = true := (notSeparator_iff a).2 (hs a (List.mem_cons_self _ _))
    simp only [List.cons_append, List.dropWhile_cons, ha, if_true]
    rw [ih (fun c hc => hs c (List.mem_cons_of_mem _ hc))]

/-- One iteration of the loop of `Clean` on an ordinary element copies it. -/
theorem cleanLoop_elem (rooted : Bool) (fuel : Nat) (s rest out : Str) (dotdot : Nat)
    (hs : normalElem s) (hr : atBoundary rest) :
    cleanLoop rooted (fuel + 1) (s ++ rest) out dotdot =
      cleanLoop rooted fuel rest (withSlash rooted out ++ s) dotdot := by
  obtain ⟨hne, hsep, hdot, hdotdot⟩ := hs
  cases s with
  | nil => exact absurd rfl hne
  | cons c t =>
    have hc : c ≠ '/' := hsep c (List.mem_cons_self _ _)
    have ht : ∀ d ∈ t, d ≠ '/' := fun d hd => hsep d (List.mem_cons_of_mem _ hd)
    have h1 : IsPathSeparator c = false := by simpa [IsPathSeparator] using hc
    have h2 : ¬ (c = '.' ∧ (t ++ rest = [] ∨ (t ++ rest).head? = some '/')) := by
      rintro ⟨rfl, h | h⟩
      · simp only [List.append_eq_nil] at h
        exact hdot (by rw [h.1])
      · cases t with
        | nil => exact hdot rfl
        | cons d t2 =>
          simp only [List.cons_append, List.head?_cons, Option.some.injEq] at h
          exact ht d (List.mem_cons_self _ _) h
    have h3 : ¬ (c = '.' ∧ (t ++ rest).head? = some '.' ∧
        ((t ++ rest).tail = [] ∨ (t ++ rest).tail.head? = some '/')) := by
      rintro ⟨rfl, hh, h⟩
      cases t with
      | nil =>
        rcases hr with hr | hr
        · subst hr; simp at hh
        · simp only [List.nil_append] at hh
          rw [hr] at hh
          simp at hh
      | cons d t2 =>
        simp only [List.cons_append, List.head?_cons, Option.some.injEq] at hh
        subst hh
        simp only [List.cons_append, List.tail_cons] at h
        rcases h with h | h
        · simp only [List.append_eq_nil] at h
          exact hdotdot (by rw [h.1])
        · cases t2 with
          | nil => exact hdotdot rfl
          | cons e t3 =>
            simp only [List.cons_append, List.head?_cons, Option.some.injEq] at h
            exact ht e (by simp) h
    have htw := takeWhile_elem (c :: t) rest hsep hr
    have hdw := dropWhile_elem (c :: t) rest hsep hr
    simp only [List.cons_append] at htw hdw
    rw [List.cons_append, cleanLoop]
    simp only [h1, h2, h3, Bool.false_eq_true, if_false, htw, hdw, withSlash]

theorem withSlash_append_elem (rooted : Bool) (out s : Str) (hs : s ≠ [])
    (hout : rooted = true → 1 ≤ out.length) :
    withSlash rooted (withSlash rooted out ++ s) = withSlash rooted out ++ s ++ ['/'] := by
  have hlen : 0 < s.length := List.length_pos.2 hs
  have h1 : out.length ≤ (withSlash rooted out).length := by
    unfold withSlash; split <;> simp
  have h2 : (withSlash rooted out ++ s).length = (withSlash rooted out).length + s.length := by
    simp
  unfold withSlash at h1 h2 ⊢
  cases rooted with
  | true =>
    have := hout rfl
    rw [if_pos]
    left
    constructor
    · rfl
    · omega
  | false =>
    rw [if_pos]
    right
    constructor
    · rfl
    · omega

theorem withSlash_length (rooted : Bool) (out : Str) (hout : rooted = true → 1 ≤ out.length) :
    rooted = true → 1 ≤ (withSlash rooted out).length := by
  intro h
  have := hout h
  unfold withSlash
  split
  · simp only [List.length_append, List.length_singleton]; omega
  · exact this

/-- The loop of `Clean` copies a path of ordinary elements unchanged. -/
theorem cleanLoop_elems (rooted : Bool) (segs : List Str) (hne : segs ≠ [])
    (hsegs : ∀ s ∈ segs, normalElem s) :
    ∀ (fuel : Nat) (out : Str) (dotdot : Nat),
      (stringsJoin segs ['/']).length ≤ fuel → (rooted = true → 1 ≤ out.length) →
      cleanLoop rooted fuel (stringsJoin segs ['/']) out dotdot =
        withSlash rooted out ++ stringsJoin segs ['/'] := by
  induction segs with
  | nil => exact absurd rfl hne
  | cons s rest ih =>
    intro fuel out dotdot hfuel hout
    have hs : normalElem s := hsegs s (List.mem_cons_self _ _)
    have hspos : 0 < s.length := List.length_pos.2 hs.1
    cases rest with
    | nil =>
      simp only [stringsJoin] at hfuel ⊢
      obtain ⟨f, rfl⟩ : ∃ f, fuel = f + 1 := ⟨fuel - 1, by omega⟩
      have := cleanLoop_elem rooted f s [] out dotdot hs (Or.inl rfl)
      rw [List.append_nil] at this
      rw [this]
      cases f <;> simp [cleanLoop]
    | cons s2 rest2 =>
      have ih2 := ih (by simp) (fun x hx => hsegs x (List.mem_cons_of_mem _ hx))
      simp only [stringsJoin, List.length_append, List.length_singleton] at hfuel ⊢
      obtain ⟨f, rfl⟩ : ∃ f, fuel = f + 2 := ⟨fuel - 2, by omega⟩
      rw [List.append_assoc]
      rw [cleanLoop_elem rooted (f + 1) s _ out dotdot hs (Or.inr (by simp))]
      have hstep : cleanLoop rooted (f + 1) (['/'] ++ stringsJoin (s2 :: rest2) ['/'])
          (withSlash rooted out ++ s) dotdot =
          cleanLoop rooted f (stringsJoin (s2 :: rest2) ['/']) (withSlash rooted out ++ s) dotdot := by
        simp [cleanLoop, IsPathSeparator]
      rw [hstep, ih2 f _ dotdot (by omega)]
      · rw [withSlash_append_elem rooted out s hs.1 hout]
        simp [List.append_assoc]
      · intro h
        have := withSlash_length rooted out hout h
        simp only [List.length_append]
        omega

/-- On an absolute path of ordinary elements `Clean` is the identity. -/
theorem Clean_absolute (segs : List Str) (hne : segs ≠ [])
    (hsegs : ∀ s ∈ segs, normalElem s) :
    Clean ('/' :: stringsJoin segs ['/']) = '/' :: stringsJoin segs ['/'] := by
  have h := cleanLoop_elems true segs hne hsegs ('/' :: stringsJoin segs ['/']).length ['/'] 1
    (by simp) (by simp)
  simp only [Clean, IsPathSeparator, beq_self_eq_true, if_true]
  rw [h]
  simp [withSlash]

/-- On a relative path of ordinary elements `Clean` is the identity. -/
theorem Clean_relative (segs : List Str) (hne : segs ≠ [])
    (hsegs : ∀ s ∈ segs, normalElem s) :
    Clean (stringsJoin segs ['/']) = stringsJoin segs ['/'] := by
  have h := cleanLoop_elems false segs hne hsegs (stringsJoin segs ['/']).length [] 0
    (Nat.le_refl _) (by simp)
  simp only [withSlash] at h
  simp only [Bool.false_eq_true, false_and, List.length_nil, ne_eq, not_true_eq_false, and_false,
    or_self, if_false, List.nil_append] at h
  cases segs with
  | nil => exact absurd rfl hne
  | cons s rest =>
    have hs : normalElem s := hsegs s (List.mem_cons_self _ _)
    obtain ⟨c, t, rfl⟩ : ∃ c t, s = c :: t := by
      cases s with
      | nil => exact absurd rfl hs.1
      | cons c t => exact ⟨c, t, rfl⟩
    have hc : c ≠ '/' := hs.2.1 c (List.mem_cons_self _ _)
    have hJ : ∃ u, stringsJoin ((c :: t) :: rest) ['/'] = c :: u := by
      cases rest with
      | nil => exact ⟨t, rfl⟩
      | cons s2 r2 => exact ⟨_, rfl⟩
    obtain ⟨u, hu⟩ := hJ
    rw [hu] at h ⊢
    have hsep : IsPathSeparator c = false := by simpa [IsPathSeparator] using hc
    simp only [Clean, hsep, Bool.false_eq_true, if_false]
    rw [h]
    simp


theorem dropWhile_notSeparator_length (t : Str) :
    (t.dropWhile notSeparator).length ≤ t.length :=
  (List.dropWhile_suffix notSeparator).length_le

/-- The result of the loop of `Clean` does not depend on the fuel once it
reaches the length of the unread input: the fuel of `Clean` never runs out
before the input does. -/
theorem cleanLoop_fuel (rooted : Bool) (fuel1 : Nat) :
    ∀ (fuel2 : Nat) (rest out : Str) (dotdot : Nat),
      rest.length ≤ fuel1 → rest.length ≤ fuel2 →
      cleanLoop rooted fuel1 rest out dotdot = cleanLoop rooted fuel2 rest out dotdot := by
  induction fuel1 with
  | zero =>
    intro fuel2 rest out dotdot h1 _
    have hr : rest = [] := List.length_eq_zero.1 (Nat.le_zero.1 h1)
    subst hr
    cases fuel2 <;> simp [cleanLoop]
  | succ f1 ih =>
    intro fuel2 rest out dotdot h1 h2
    cases rest with
    | nil => cases fuel2 <;> simp [cleanLoop]
    | cons c t =>
      obtain ⟨f2, rfl⟩ : ∃ f2, fuel2 = f2 + 1 := ⟨fuel2 - 1, by simp at h2; omega⟩
      simp only [List.length_cons, Nat.add_le_add_iff_right] at h1 h2
      have htail : t.tail.length ≤ t.length := by simp
      rw [cleanLoop, cleanLoop]
      by_cases hc : IsPathSeparator c = true
      · rw [if_pos hc, if_pos hc]
        exact ih f2 t out dotdot h1 h2
      · rw [if_neg hc, if_neg hc]
        have hdrop : ((c :: t).dropWhile notSeparator).length ≤ t.length := by
          have hn : notSeparator c = true := by
            simpa [notSeparator] using hc
          rw [List.dropWhile_cons_of_pos hn]
          exact dropWhile_notSeparator_length t
        rw [ih f2 t out dotdot h1 h2,
          ih f2 t.tail _ dotdot (by omega) (by omega),
          ih f2 t.tail _ _ (by omega) (by omega),
          ih f2 t.tail out dotdot (by omega) (by omega),
          ih f2 ((c :: t).dropWhile notSeparator) _ dotdot (by omega) (by omega)]


/-! ## `PoolPath` -/

theorem stringsJoin_append (a b : List Str) (ha : a ≠ []) (hb : b ≠ []) :
    stringsJoin (a ++ b) ['/'] = stringsJoin a ['/'] ++ ['/'] ++ stringsJoin b ['/'] := by
  induction a with
  | nil => exact absurd rfl ha
  | cons x rest ih =>
    cases rest with
    | nil =>
      cases b with
      | nil => exact absurd rfl hb
      | cons y b2 => simp [stringsJoin]
    | cons x2 rest2 =>
      have := ih (by simp)
      simp only [List.cons_append] at this ⊢
      simp only [stringsJoin, this, List.append_assoc]

theorem Clean_pathOf (rooted : Bool) (segs : List Str) (hne : segs ≠ [])
    (hsegs : ∀ s ∈ segs, normalElem s) : Clean (pathOf rooted segs) = pathOf rooted segs := by
  cases rooted with
  | true => simpa [pathOf] using Clean_absolute segs hne hsegs
  | false => simpa [pathOf] using Clean_relative segs hne hsegs

theorem pathOf_ne_nil (rooted : Bool) (segs : List Str) (hne : segs ≠ [])
    (hsegs : ∀ s ∈ segs, normalElem s) : pathOf rooted segs ≠ [] := by
  cases segs with
  | nil => exact absurd rfl hne
  | cons s rest =>
    have hs : s ≠ [] := (hsegs s (List.mem_cons_self _ _)).1
    cases rest with
    | nil => cases rooted <;> simp [pathOf, stringsJoin, hs]
    | cons s2 r2 => cases rooted <;> simp [pathOf, stringsJoin, hs]

/-- The `Join` of a clean path and further ordinary elements is their concatenation
with single separators. -/
theorem Join_pathOf (rooted : Bool) (segs more : List Str) (hne : segs ≠ [])
    (hsegs : ∀ s ∈ segs, normalElem s) (hmne : more ≠ []) (hmore : ∀ s ∈ more, normalElem s) :
    Join (pathOf rooted segs :: more) = pathOf rooted (segs ++ more) := by
  have h0 := pathOf_ne_nil rooted segs hne hsegs
  have hJ : stringsJoin (pathOf rooted segs :: more) ['/'] = pathOf rooted (segs ++ more) := by
    cases more with
    | nil => exact absurd rfl hmne
    | cons m ms =>
      simp only [stringsJoin, pathOf]
      rw [stringsJoin_append segs (m :: ms) hne (by simp)]
      simp [List.append_assoc]
  have hall : ∀ s ∈ segs ++ more, normalElem s := by
    intro s hs
    rcases List.mem_append.1 hs with h | h
    · exact hsegs s h
    · exact hmore s h
  unfold Join
  simp only [List.dropWhile_cons, h0, decide_False, Bool.false_eq_true, if_false]
  rw [hJ]
  exact Clean_pathOf rooted (segs ++ more) (by simp [hne]) hall

theorem normalElem_Base (filename : Str) (h1 : Base filename ≠ ['.']) (h2 : Base filename ≠ ['/'])
    (h3 : Base filename ≠ ['.', '.']) : normalElem (Base filename) := by
  rcases Base_cases filename with h | h | h
  · exact absurd h h1
  · exact absurd h h2
  · exact ⟨h.1, h.2, h1, h3⟩

theorem PoolPath_of_valid (r : Repository) (filename hashMD5 : Str)
    (h1 : Base filename ≠ ['.']) (h2 : Base filename ≠ ['/']) (hh : 4 ≤ hashMD5.length) :
    PoolPath r filename hashMD5 =
      .ret (Join [r.RootPath, "pool".toList, hashMD5.take 2, (hashMD5.take 4).drop 2,
        Base filename], none) := by
  have hs1 : slice hashMD5 0 2 = some (hashMD5.take 2) := by
    unfold slice
    rw [if_pos ⟨by omega, by omega⟩]
    simp
  have hs2 : slice hashMD5 2 4 = some ((hashMD5.take 4).drop 2) := by
    unfold slice
    rw [if_pos ⟨by omega, by omega⟩]
  unfold PoolPath
  simp only [h1, h2, or_self, if_false, hs1, hs2]

theorem PoolPath_of_invalid (r : Repository) (filename hashMD5 : Str)
    (h : Base filename = ['.'] ∨ Base filename = ['/']) :
    PoolPath r filename hashMD5 = .ret ([], some (invalidFilename (Base filename))) := by
  unfold PoolPath
  simp only [h, if_true]


/-! ## Claims on `PoolPath` -/

/-- C1 (counterexample): with at least four hash bytes and a base name other
than `.` and `/`, `PoolPath` does not always return the five segments joined by
`/`, because `filepath.Join` cleans the joined path: a root with a trailing
separator gives no doubled separator, the base name `..` removes the second
bucket, and a bucket `..` removes the first. -/
theorem PoolPath_layout_counterexample :
    (Base "x.deb".toList ≠ ['.'] ∧ Base "x.deb".toList ≠ ['/'] ∧ 4 ≤ "abcdef".toList.length ∧
      PoolPath ⟨"/srv/".toList⟩ "x.deb".toList "abcdef".toList
        = .ret ("/srv/pool/ab/cd/x.deb".toList, none) ∧
      poolLayout "/srv/".toList "abcdef".toList (Base "x.deb".toList)
        = "/srv//pool/ab/cd/x.deb".toList ∧
      PoolPath ⟨"/srv/".toList⟩ "x.deb".toList "abcdef".toList
        ≠ .ret (poolLayout "/srv/".toList "abcdef".toList (Base "x.deb".toList), none)) ∧
    (Base "..".toList ≠ ['.'] ∧ Base "..".toList ≠ ['/'] ∧
      PoolPath ⟨"/srv".toList⟩ "..".toList "abcdef".toList
        = .ret ("/srv/pool/ab".toList, none) ∧
      poolLayout "/srv".toList "abcdef".toList (Base "..".toList)
        = "/srv/pool/ab/cd/..".toList ∧
      PoolPath ⟨"/srv".toList⟩ "..".toList "abcdef".toList
        ≠ .ret (poolLayout "/srv".toList "abcdef".toList (Base "..".toList), none)) ∧
    (4 ≤ "ab..".toList.length ∧
      PoolPath ⟨"/srv".toList⟩ "x.deb".toList "ab..".toList
        = .ret ("/srv/pool/x.deb".toList, none) ∧
      poolLayout "/srv".toList "ab..".toList (Base "x.deb".toList)
        = "/srv/pool/ab/../x.deb".toList ∧
      PoolPath ⟨"/srv".toList⟩ "x.deb".toList "ab..".toList
        ≠ .ret (poolLayout "/srv".toList "ab..".toList (Base "x.deb".toList), none)) := by
  decide

/-- C1 (amended): for a clean root (ordinary elements separated by single
separators, absolute or relative), a file name whose base name is none of `.`,
`/` and `..`, and a hash of at least four bytes whose buckets `hashMD5[0:2]` and
`hashMD5[2:4]` are ordinary elements, `PoolPath` succeeds and returns exactly
`<root>/pool/<hashMD5[0:2]>/<hashMD5[2:4]>/<basename(filename)>`. -/
theorem PoolPath_layout (rooted : Bool) (segs : List Str) (filename hashMD5 : Str)
    (hne : segs ≠ []) (hsegs : ∀ s ∈ segs, normalElem s)
    (h1 : Base filename ≠ ['.']) (h2 : Base filename ≠ ['/']) (h3 : Base filename ≠ ['.', '.'])
    (hh : 4 ≤ hashMD5.length) (hb1 : normalElem (hashMD5.take 2))
    (hb2 : normalElem ((hashMD5.take 4).drop 2)) :
    PoolPath ⟨pathOf rooted segs⟩ filename hashMD5 =
      .ret (poolLayout (pathOf rooted segs) hashMD5 (Base filename), none) := by
  rw [PoolPath_of_valid _ _ _ h1 h2 hh]
  have hmore : ∀ s ∈ ["pool".toList, hashMD5.take 2, (hashMD5.take 4).drop 2, Base filename],
      normalElem s := by
    intro s hs
    simp only [List.mem_cons, List.mem_singleton, List.not_mem_nil, or_false] at hs
    rcases hs with h | h | h | h
    · rw [h]; decide
    · rw [h]; exact hb1
    · rw [h]; exact hb2
    · rw [h]; exact normalElem_Base filename h1 h2 h3
  have hJ := Join_pathOf rooted segs _ hne hsegs (by simp) hmore
  simp only at hJ ⊢
  rw [hJ]
  congr 1
  congr 1
  unfold pathOf poolLayout
  rw [stringsJoin_append segs _ hne (by simp)]
  simp [stringsJoin, List.append_assoc]

/-- C1 (witness): the root `/srv/aptly`, the file name `dir/x.deb` and a
32-character digest give `/srv/aptly/pool/01/23/x.deb`. -/
theorem PoolPath_layout_witness :
    PoolPath ⟨"/srv/aptly".toList⟩ "dir/x.deb".toList "0123456789abcdef0123456789abcdef".toList =
      .ret ("/srv/aptly/pool/01/23/x.deb".toList, none) :=
  PoolPath_layout true ["srv".toList, "aptly".toList] "dir/x.deb".toList
    "0123456789abcdef0123456789abcdef".toList (by decide) (by decide) (by decide) (by decide)
    (by decide) (by decide) (by decide) (by decide)

/-- C2: with a hash of at least four bytes, `PoolPath` returns an error exactly
when the base name of the file name is `.` or `/`, the error is the
invalid-filename error with an empty path, and every other file name gives a
path and no error; the empty name, `.`, `/` and every run of separators fail. -/
theorem PoolPath_error_iff (r : Repository) (filename hashMD5 : Str) (hh : 4 ≤ hashMD5.length) :
    ((∃ p e, PoolPath r filename hashMD5 = .ret (p, some e)) ↔
      (Base filename = ['.'] ∨ Base filename = ['/'])) ∧
    ((Base filename = ['.'] ∨ Base filename = ['/']) →
      PoolPath r filename hashMD5 = .ret ([], some (invalidFilename (Base filename)))) ∧
    (¬ (Base filename = ['.'] ∨ Base filename = ['/']) →
      ∃ p, PoolPath r filename hashMD5 = .ret (p, none)) ∧
    PoolPath r [] hashMD5 = .ret ([], some (invalidFilename ['.'])) ∧
    PoolPath r ['.'] hashMD5 = .ret ([], some (invalidFilename ['.'])) ∧
    PoolPath r ['/'] hashMD5 = .ret ([], some (invalidFilename ['/'])) ∧
    (∀ n, PoolPath r (List.replicate (n + 1) '/') hashMD5 =
      .ret ([], some (invalidFilename ['/']))) := by
  refine ⟨⟨?_, ?_⟩, PoolPath_of_invalid r filename hashMD5, ?_, ?_, ?_, ?_, ?_⟩
  · rintro ⟨p, e, h⟩
    by_contra hb
    rw [not_or] at hb
    rw [PoolPath_of_valid r filename hashMD5 hb.1 hb.2 hh] at h
    simp at h
  · intro hb
    exact ⟨_, _, PoolPath_of_invalid r filename hashMD5 hb⟩
  · intro hb
    rw [not_or] at hb
    exact ⟨_, PoolPath_of_valid r filename hashMD5 hb.1 hb.2 hh⟩
  · exact PoolPath_of_invalid r [] hashMD5 (Or.inl (by decide))
  · exact PoolPath_of_invalid r ['.'] hashMD5 (Or.inl (by decide))
  · exact PoolPath_of_invalid r ['/'] hashMD5 (Or.inr (by decide))
  · intro n
    have hB := Base_separators n
    have := PoolPath_of_invalid r (List.replicate (n + 1) '/') hashMD5 (Or.inr hB)
    rw [hB] at this
    exact this

/-- C2 (witness): `PoolPath("/", "0123456789abcdef0123456789abcdef")` is the
invalid-filename error. -/
theorem PoolPath_error_iff_witness :
    4 ≤ "0123456789abcdef0123456789abcdef".toList.length ∧
    PoolPath ⟨"/srv".toList⟩ ['/'] "0123456789abcdef0123456789abcdef".toList =
      .ret ([], some (invalidFilename ['/'])) :=
  ⟨by decide,
    (PoolPath_error_iff ⟨"/srv".toList⟩ ['/'] "0123456789abcdef0123456789abcdef".toList
      (by decide)).2.2.2.2.2.1⟩

/-- C3: `PoolPath(f, h)` equals `PoolPath(basename(f), h)`, in the path and in
the error, for every root, file name and hash (so in particular for every
32-character hexadecimal digest): `filepath.Base` is idempotent. -/
theorem PoolPath_Base (r : Repository) (filename hashMD5 : Str) :
    PoolPath r filename hashMD5 = PoolPath r (Base filename) hashMD5 ∧
    Base (Base filename) = Base filename := by
  refine ⟨?_, Base_idem filename⟩
  unfold PoolPath
  simp only [Base_idem]

/-- C10 (counterexample): with a hash shorter than four bytes `PoolPath`
returns the invalid-filename error, and does not panic, when the base name is
`/` or `.`: the check of the file name comes before the slice expressions. -/
theorem PoolPath_short_hash_counterexample :
    "ab".toList.length < 4 ∧
    PoolPath ⟨"/srv".toList⟩ "/".toList "ab".toList =
      .ret ([], some (invalidFilename "/".toList)) ∧
    PoolPath ⟨"/srv".toList⟩ "/".toList "ab".toList ≠ .fault ∧
    PoolPath ⟨"/srv".toList⟩ [] [] = .ret ([], some (invalidFilename ".".toList)) ∧
    PoolPath ⟨"/srv".toList⟩ [] [] ≠ .fault := by
  decide

/-- C10 (amended): for every file name whose base name is neither `.` nor `/`,
`PoolPath` called with a hash shorter than four bytes panics on a slice
expression: it returns neither a path nor an error. -/
theorem PoolPath_short_hash_faults (r : Repository) (filename hashMD5 : Str)
    (h1 : Base filename ≠ ['.']) (h2 : Base filename ≠ ['/']) (hh : hashMD5.length < 4) :
    PoolPath r filename hashMD5 = .fault := by
  have hs2 : slice hashMD5 2 4 = none := by
    unfold slice
    rw [if_neg (by omega)]
  unfold PoolPath
  simp only [h1, h2, or_self, if_false, hs2]
  split
  · rename_i heq1 heq2
    simp at heq2
  · rfl

/-- C10 (witness): a three-byte hash with the file name `x.deb` panics. -/
theorem PoolPath_short_hash_faults_witness :
    PoolPath ⟨"/srv".toList⟩ "x.deb".toList "abc".toList = .fault :=
  PoolPath_short_hash_faults ⟨"/srv".toList⟩ "x.deb".toList "abc".toList
    (by decide) (by decide) (by decide)


/-! ## The `os` calls -/

theorem Stat_ok_iff (name : Str) (fs : FS) (n : Node) :
    Stat name fs = .ok n ↔ fs.entry name = some n := by
  unfold Stat
  cases h : fs.entry name <;> simp

theorem Stat_error_iff (name : Str) (fs : FS) :
    (∃ e, Stat name fs = .error e) ↔ fs.entry name = none := by
  unfold Stat
  cases h : fs.entry name <;> simp

/-- On an existing directory `MkdirAll` returns `nil` and changes nothing. -/
theorem MkdirAllAux_dir (fuel : Nat) (path : Str) (fs : FS) (h : fs.entry path = some .dir) :
    MkdirAllAux (fuel + 1) path fs = (none, fs) := by
  simp [MkdirAllAux, Stat, h]

theorem MkdirAll_dir (path : Str) (fs : FS) (h : fs.entry path = some .dir) :
    MkdirAll path fs = (none, fs) :=
  MkdirAllAux_dir _ path fs h

theorem Mkdir_ok (name : Str) (fs fs1 : FS) (h : Mkdir name fs = (none, fs1)) :
    fs1 = fs.insert name .dir := by
  unfold Mkdir at h
  split at h
  · simp at h
  · split at h
    · simp at h; exact h.symm
    · split at h
      · simp at h; exact h.symm
      · simp at h
      · simp at h

theorem insert_entry_self (fs : FS) (name : Str) (n : Node) :
    (fs.insert name n).entry name = some n := by
  simp [FS.insert]

theorem insert_entry_of_ne (fs : FS) (name q : Str) (n : Node) (h : q ≠ name) :
    (fs.insert name n).entry q = fs.entry q := by
  simp [FS.insert, h]

/-- After a successful `MkdirAll` the path is a directory. -/
theorem MkdirAllAux_ok (fuel : Nat) (path : Str) (fs fs1 : FS)
    (h : MkdirAllAux fuel path fs = (none, fs1)) : fs1.entry path = some .dir := by
  cases fuel with
  | zero => simp [MkdirAllAux] at h
  | succ fuel =>
    rw [MkdirAllAux] at h
    cases hst : fs.entry path with
    | some n =>
      cases n with
      | dir =>
        simp only [Stat, hst] at h
        simp only [Prod.mk.injEq, true_and] at h
        rw [← h]; exact hst
      | file i => simp [Stat, hst] at h
    | none =>
      simp only [Stat, hst] at h
      generalize hr : (match parentDir path with
        | some p => MkdirAllAux fuel p fs
        | none => (none, fs)) = r at h
      obtain ⟨e, fs2⟩ := r
      cases e with
      | some err => simp at h
      | none =>
        simp only at h
        cases hm : Mkdir path fs2 with
        | mk e2 fs3 =>
          rw [hm] at h
          cases e2 with
          | none =>
            simp only [Prod.mk.injEq, true_and] at h
            rw [← h, Mkdir_ok path fs2 fs3 hm]
            exact insert_entry_self _ _ _
          | some err =>
            simp only at h
            cases hst3 : fs3.entry path with
            | none => simp [hst3] at h
            | some n =>
              cases n with
              | dir =>
                simp only [hst3, Prod.mk.injEq, true_and] at h
                rw [← h]; exact hst3
              | file i => simp [hst3] at h

theorem MkdirAll_ok (path : Str) (fs fs1 : FS) (h : MkdirAll path fs = (none, fs1)) :
    fs1.entry path = some .dir :=
  MkdirAllAux_ok _ path fs fs1 h

theorem Mkdir_error_kind (name : Str) (fs fs1 : FS) (e : GoError)
    (h : Mkdir name fs = (some e, fs1)) : ∃ op p n, e = .pathError op p n := by
  unfold Mkdir at h
  split at h
  · simp only [Prod.mk.injEq, Option.some.injEq] at h
    exact ⟨_, _, _, h.1.symm⟩
  · split at h
    · simp at h
    · split at h
      · simp at h
      · simp only [Prod.mk.injEq, Option.some.injEq] at h
        exact ⟨_, _, _, h.1.symm⟩
      · simp only [Prod.mk.injEq, Option.some.injEq] at h
        exact ⟨_, _, _, h.1.symm⟩

/-- Every error of `MkdirAll` is a `*PathError`. -/
theorem MkdirAllAux_error_kind (fuel : Nat) : ∀ (path : Str) (fs fs1 : FS) (e : GoError),
    MkdirAllAux fuel path fs = (some e, fs1) → ∃ op p n, e = .pathError op p n := by
  induction fuel with
  | zero =>
    intro path fs fs1 e h
    simp only [MkdirAllAux, Prod.mk.injEq, Option.some.injEq] at h
    exact ⟨_, _, _, h.1.symm⟩
  | succ fuel ih =>
    intro path fs fs1 e h
    rw [MkdirAllAux] at h
    cases hst : fs.entry path with
    | some n =>
      cases n with
      | dir => simp [Stat, hst] at h
      | file i =>
        simp only [Stat, hst, Prod.mk.injEq, Option.some.injEq] at h
        exact ⟨_, _, _, h.1.symm⟩
    | none =>
      simp only [Stat, hst] at h
      have hrec : ∀ e2 fs2, (match parentDir path with
        | some p => MkdirAllAux fuel p fs
        | none => (none, fs)) = (some e2, fs2) → ∃ op p n, e2 = .pathError op p n := by
        intro e2 fs2 h2
        cases hp : parentDir path with
        | none => simp [hp] at h2
        | some p =>
          simp only [hp] at h2
          exact ih p fs fs2 e2 h2
      generalize hr : (match parentDir path with
        | some p => MkdirAllAux fuel p fs
        | none => (none, fs)) = r at h hrec
      obtain ⟨e1, fs2⟩ := r
      cases e1 with
      | some err =>
        simp only [Prod.mk.injEq, Option.some.injEq] at h
        rw [← h.1]
        exact hrec err fs2 rfl
      | none =>
        simp only at h
        cases hm : Mkdir path fs2 with
        | mk e2 fs3 =>
          rw [hm] at h
          cases e2 with
          | none => simp at h
          | some err =>
            have hk := Mkdir_error_kind path fs2 fs3 err hm
            simp only at h
            cases hst3 : fs3.entry path with
            | none =>
              simp only [hst3, Prod.mk.injEq, Option.some.injEq] at h
              rw [← h.1]; exact hk
            | some n =>
              cases n with
              | dir => simp [hst3] at h
              | file i =>
                simp only [hst3, Prod.mk.injEq, Option.some.injEq] at h
                rw [← h.1]; exact hk

theorem Link_error_kind (o n : Str) (fs fs1 : FS) (e : GoError)
    (h : Link o n fs = (some e, fs1)) : ∃ op a b k, e = .linkError op a b k := by
  unfold Link at h
  split at h
  · simp only [Prod.mk.injEq, Option.some.injEq] at h
    exact ⟨_, _, _, _, h.1.symm⟩
  · simp only [Prod.mk.injEq, Option.some.injEq] at h
    exact ⟨_, _, _, _, h.1.symm⟩
  · split at h
    · simp only [Prod.mk.injEq, Option.some.injEq] at h
      exact ⟨_, _, _, _, h.1.symm⟩
    · split at h
      · simp at h
      · split at h
        · simp at h
        · simp only [Prod.mk.injEq, Option.some.injEq] at h
          exact ⟨_, _, _, _, h.1.symm⟩
        · simp only [Prod.mk.injEq, Option.some.injEq] at h
          exact ⟨_, _, _, _, h.1.symm⟩

/-- A successful `Link` adds the entry `newname` for the inode of `oldname`. -/
theorem Link_ok (o n : Str) (fs fs1 : FS) (h : Link o n fs = (none, fs1)) :
    ∃ i, fs.entry o = some (.file i) ∧ fs.entry n = none ∧ fs1 = fs.insert n (.file i) := by
  unfold Link at h
  split at h
  · simp at h
  · simp at h
  · rename_i i ho
    split at h
    · simp at h
    · rename_i hn
      split at h
      · simp only [Prod.mk.injEq, true_and] at h
        exact ⟨i, ho, hn, h.symm⟩
      · split at h
        · simp only [Prod.mk.injEq, true_and] at h
          exact ⟨i, ho, hn, h.symm⟩
        · simp at h
        · simp at h


theorem parentDir_length (path p : Str) (h : parentDir path = some p) :
    p.length < path.length := by
  unfold parentDir at h
  have h1 : ((path.rdropWhile IsPathSeparator).rdropWhile notSeparator).length ≤ path.length :=
    Nat.le_trans (List.rdropWhile_prefix _ _).length_le (List.rdropWhile_prefix _ _).length_le
  simp only at h
  split at h
  · simp only [Option.some.injEq] at h
    rw [← h, List.length_take]
    omega
  · simp at h

/-- The result of `MkdirAllAux` does not depend on the fuel once it exceeds the
length of the path: the fuel of `MkdirAll` never runs out. -/
theorem MkdirAllAux_fuel (fuel1 : Nat) : ∀ (fuel2 : Nat) (path : Str) (fs : FS),
    path.length < fuel1 → path.length < fuel2 →
    MkdirAllAux fuel1 path fs = MkdirAllAux fuel2 path fs := by
  induction fuel1 with
  | zero => intro fuel2 path fs h1; omega
  | succ f1 ih =>
    intro fuel2 path fs h1 h2
    obtain ⟨f2, rfl⟩ : ∃ f2, fuel2 = f2 + 1 := ⟨fuel2 - 1, by omega⟩
    have hrec : (match parentDir path with
        | some p => MkdirAllAux f1 p fs
        | none => (none, fs)) = (match parentDir path with
        | some p => MkdirAllAux f2 p fs
        | none => (none, fs)) := by
      cases hp : parentDir path with
      | none => rfl
      | some p =>
        have := parentDir_length path p hp
        exact ih f2 p fs (by omega) (by omega)
    rw [MkdirAllAux, MkdirAllAux, hrec]

/-! ## The shape of a run of `LinkFromPool` -/

/-- The body of `LinkFromPool` written with the names `bucket`, `publishedDir`,
`publishedFile` and `relPathOf` for the expressions of its body. -/
theorem LinkFromPool_eq (r : Repository) (fs : FS) (pfx component filename hashMD5 source : Str) :
    LinkFromPool r fs pfx component filename hashMD5 source =
      match PoolPath r filename hashMD5 with
      | .fault => ⟨.fault, fs, []⟩
      | .ret (_, some err) => ⟨.ret ([], some err), fs, []⟩
      | .ret (src, none) =>
        if source.length < 2 then ⟨.ret ([], some (sourceTooShort source)), fs, []⟩
        else
          match bucket source with
          | none => ⟨.fault, fs, []⟩
          | some subdir =>
            match MkdirAll (publishedDir r pfx component subdir source) fs with
            | (some err, fs1) =>
              ⟨.ret ([], some err), fs1, [.mkdirAll (publishedDir r pfx component subdir source)]⟩
            | (none, fs1) =>
              match Stat (publishedFile r pfx component subdir source filename) fs1 with
              | .ok _ =>
                ⟨.ret (relPathOf component subdir source filename, none), fs1,
                  [.mkdirAll (publishedDir r pfx component subdir source),
                    .stat (publishedFile r pfx component subdir source filename)]⟩
              | .error _ =>
                match Link src (publishedFile r pfx component subdir source filename) fs1 with
                | (err, fs2) =>
                  ⟨.ret (relPathOf component subdir source filename, err), fs2,
                    [.mkdirAll (publishedDir r pfx component subdir source),
                      .stat (publishedFile r pfx component subdir source filename),
                      .link src (publishedFile r pfx component subdir source filename)]⟩ := by
  rfl

/-- A run of `LinkFromPool` that returns without error: `PoolPath` gave the
pool path, the source has a bucket, the directory was made, and then either the
probe found an entry and nothing more was done, or it found none and the link
was made. -/
theorem LinkFromPool_ok (r : Repository) (fs : FS) (pfx component filename hashMD5 source p : Str)
    (h : (LinkFromPool r fs pfx component filename hashMD5 source).out = .ret (p, none)) :
    ∃ src subdir fs1,
      PoolPath r filename hashMD5 = .ret (src, none) ∧ 2 ≤ source.length ∧
      bucket source = some subdir ∧ p = relPathOf component subdir source filename ∧
      MkdirAll (publishedDir r pfx component subdir source) fs = (none, fs1) ∧
      (((∃ n, fs1.entry (publishedFile r pfx component subdir source filename) = some n) ∧
          LinkFromPool r fs pfx component filename hashMD5 source =
            ⟨.ret (p, none), fs1,
              [.mkdirAll (publishedDir r pfx component subdir source),
                .stat (publishedFile r pfx component subdir source filename)]⟩) ∨
        (fs1.entry (publishedFile r pfx component subdir source filename) = none ∧
          ∃ fs2, Link src (publishedFile r pfx component subdir source filename) fs1 = (none, fs2) ∧
          LinkFromPool r fs pfx component filename hashMD5 source =
            ⟨.ret (p, none), fs2,
              [.mkdirAll (publishedDir r pfx component subdir source),
                .stat (publishedFile r pfx component subdir source filename),
                .link src (publishedFile r pfx component subdir source filename)]⟩)) := by
  rw [LinkFromPool_eq] at h ⊢
  cases hP : PoolPath r filename hashMD5 with
  | fault => rw [hP] at h; simp at h
  | ret a =>
    obtain ⟨src, e⟩ := a
    cases e with
    | some err => rw [hP] at h; simp at h
    | none =>
      rw [hP] at h
      simp only at h ⊢
      by_cases hlen : source.length < 2
      · rw [if_pos hlen] at h; simp at h
      · rw [if_neg hlen] at h ⊢
        cases hb : bucket source with
        | none => rw [hb] at h; simp at h
        | some subdir =>
          rw [hb] at h
          simp only at h ⊢
          cases hm : MkdirAll (publishedDir r pfx component subdir source) fs with
          | mk e1 fs1 =>
            rw [hm] at h
            cases e1 with
            | some err => simp at h
            | none =>
              simp only at h ⊢
              cases hst : fs1.entry (publishedFile r pfx component subdir source filename) with
              | some n =>
                simp only [Stat, hst] at h ⊢
                simp only [Outcome.ret.injEq, Prod.mk.injEq, and_true] at h
                refine ⟨src, subdir, fs1, rfl, by omega, rfl, h.symm, hm, Or.inl ⟨⟨n, hst⟩, ?_⟩⟩
                rw [h]
              | none =>
                simp only [Stat, hst] at h ⊢
                cases hl : Link src (publishedFile r pfx component subdir source filename) fs1 with
                | mk e2 fs2 =>
                  rw [hl] at h
                  simp only [Outcome.ret.injEq, Prod.mk.injEq] at h
                  obtain ⟨h1, h2⟩ := h
                  subst h2
                  refine ⟨src, subdir, fs1, rfl, by omega, rfl, h1.symm, hm,
                    Or.inr ⟨hst, fs2, hl, ?_⟩⟩
                  rw [h1]


/-! ## Claims on `LinkFromPool` -/

theorem HasPrefix_iff (s p : Str) : HasPrefix s p = true ↔ p <+: s := by
  unfold HasPrefix
  rw [List.prefix_iff_eq_take]
  simp only [Bool.and_eq_true, decide_eq_true_eq]
  constructor
  · rintro ⟨_, h⟩; exact h.symm
  · intro h
    refine ⟨?_, h.symm⟩
    have := congrArg List.length h
    rw [List.length_take] at this
    omega

theorem slice_zero (s : Str) (n : Nat) (t : Str) (h : slice s 0 n = some t) :
    n ≤ s.length ∧ t = s.take n := by
  unfold slice at h
  split at h
  · rename_i hc
    simp only [List.drop_zero, Option.some.injEq] at h
    exact ⟨hc.2, h.symm⟩
  · simp at h

theorem bucket_eq (source subdir : Str) (h : bucket source = some subdir) :
    subdir = bucketSpec source ∧ ("lib".toList <+: source → 4 ≤ source.length) := by
  unfold bucket at h
  unfold bucketSpec
  by_cases hp : HasPrefix source "lib".toList = true
  · rw [if_pos hp] at h
    have := slice_zero _ _ _ h
    rw [if_pos ((HasPrefix_iff _ _).1 hp)]
    exact ⟨this.2, fun _ => this.1⟩
  · rw [if_neg hp] at h
    have := slice_zero _ _ _ h
    have hp2 : ¬ ("lib".toList <+: source) := fun h2 => hp ((HasPrefix_iff _ _).2 h2)
    rw [if_neg hp2]
    exact ⟨this.2, fun h2 => absurd h2 hp2⟩

theorem PoolPath_ok_Base (r : Repository) (filename hashMD5 src : Str)
    (h : PoolPath r filename hashMD5 = .ret (src, none)) :
    Base filename ≠ ['.'] ∧ Base filename ≠ ['/'] := by
  by_contra hc
  have hb : Base filename = ['.'] ∨ Base filename = ['/'] := by
    by_cases h1 : Base filename = ['.']
    · exact Or.inl h1
    · by_cases h2 : Base filename = ['/']
      · exact Or.inr h2
      · exact absurd ⟨h1, h2⟩ hc
  rw [PoolPath_of_invalid r filename hashMD5 hb] at h
  simp at h

theorem normalElem_bucketSpec (source : Str) (hlen : 2 ≤ source.length)
    (hlib : "lib".toList <+: source → 4 ≤ source.length)
    (hsep : ∀ c ∈ source, c ≠ '/') (hdot : source.head? ≠ some '.') :
    normalElem (bucketSpec source) := by
  unfold bucketSpec
  by_cases hp : "lib".toList <+: source
  · rw [if_pos hp]
    have h4 := hlib hp
    obtain ⟨t, rfl⟩ := hp
    have hmem : ∀ c ∈ List.take 4 ("lib".toList ++ t), c ≠ '/' :=
      fun c hc => hsep c (List.mem_of_mem_take hc)
    cases t with
    | nil => simp at h4
    | cons x t2 =>
      have hx : List.take 4 ("lib".toList ++ x :: t2) = ['l', 'i', 'b', x] := by
        simp [List.take]
      rw [hx] at hmem ⊢
      exact ⟨by simp, hmem, by simp, by simp⟩
  · rw [if_neg hp]
    cases source with
    | nil => simp at hlen
    | cons c t =>
      have hc1 : c ≠ '/' := hsep c (List.mem_cons_self _ _)
      have hc2 : c ≠ '.' := by
        intro h; apply hdot; simp [h]
      refine ⟨by simp, ?_, ?_, by simp⟩
      · intro d hd
        simp only [List.take_succ_cons, List.take_zero, List.mem_singleton] at hd
        rw [hd]; exact hc1
      · simp only [List.take_succ_cons, List.take_zero]
        intro h
        exact hc2 (List.head_eq_of_cons_eq h)

theorem normalElem_source (source : Str) (hlen : 2 ≤ source.length)
    (hsep : ∀ c ∈ source, c ≠ '/') (hdot : source.head? ≠ some '.') : normalElem source := by
  cases source with
  | nil => simp at hlen
  | cons c t =>
    have hc2 : c ≠ '.' := by
      intro h; apply hdot; simp [h]
    refine ⟨by simp, hsep, ?_, ?_⟩
    · intro h; exact hc2 (List.head_eq_of_cons_eq h)
    · intro h; exact hc2 (List.head_eq_of_cons_eq h)

/-- The `Join` of ordinary elements is their concatenation with single separators. -/
theorem Join_elems (segs : List Str) (hne : segs ≠ []) (hsegs : ∀ s ∈ segs, normalElem s) :
    Join segs = stringsJoin segs ['/'] := by
  cases segs with
  | nil => exact absurd rfl hne
  | cons s rest =>
    have hs : s ≠ [] := (hsegs s (List.mem_cons_self _ _)).1
    unfold Join
    simp only [List.dropWhile_cons, hs, decide_False, Bool.false_eq_true, if_false]
    exact Clean_relative (s :: rest) hne hsegs


/-- When the directory exists and the destination has an entry, `LinkFromPool`
returns the relative path after the probe, without linking and without changing
the state. -/
theorem LinkFromPool_skip (r : Repository) (fs : FS)
    (pfx component filename hashMD5 source src subdir : Str) (n : Node)
    (hP : PoolPath r filename hashMD5 = .ret (src, none)) (hlen : 2 ≤ source.length)
    (hb : bucket source = some subdir)
    (hdir : fs.entry (publishedDir r pfx component subdir source) = some .dir)
    (hdst : fs.entry (publishedFile r pfx component subdir source filename) = some n) :
    LinkFromPool r fs pfx component filename hashMD5 source =
      ⟨.ret (relPathOf component subdir source filename, none), fs,
        [.mkdirAll (publishedDir r pfx component subdir source),
          .stat (publishedFile r pfx component subdir source filename)]⟩ := by
  rw [LinkFromPool_eq, hP]
  simp only
  rw [if_neg (by omega), hb]
  simp only
  rw [MkdirAll_dir _ _ hdir]
  simp only [Stat, hdst]

/-- C4 (counterexample): calls that return without error and a relative path
other than `pool/<component>/<subdir>/<source>/<basename>`: with an empty
component, and with a source that starts with `.`, `filepath.Join` cleans the
joined path. -/
theorem LinkFromPool_relPath_counterexample :
    ((LinkFromPool ⟨"/srv".toList⟩ fsPool "squeeze".toList [] "libfoo_1.0.deb".toList digest
        "libfoo".toList).out = .ret ("pool/libf/libfoo/libfoo_1.0.deb".toList, none) ∧
      publishedLayout [] (bucketSpec "libfoo".toList) "libfoo".toList
        (Base "libfoo_1.0.deb".toList) = "pool//libf/libfoo/libfoo_1.0.deb".toList ∧
      "pool/libf/libfoo/libfoo_1.0.deb".toList ≠
        publishedLayout [] (bucketSpec "libfoo".toList) "libfoo".toList
          (Base "libfoo_1.0.deb".toList)) ∧
    ((LinkFromPool ⟨"/srv".toList⟩ fsPool "squeeze".toList "main".toList "libfoo_1.0.deb".toList
        digest ".foo".toList).out = .ret ("pool/main/.foo/libfoo_1.0.deb".toList, none) ∧
      publishedLayout "main".toList (bucketSpec ".foo".toList) ".foo".toList
        (Base "libfoo_1.0.deb".toList) = "pool/main/./.foo/libfoo_1.0.deb".toList ∧
      "pool/main/.foo/libfoo_1.0.deb".toList ≠
        publishedLayout "main".toList (bucketSpec ".foo".toList) ".foo".toList
          (Base "libfoo_1.0.deb".toList)) := by
  decide

/-- C4 (amended): whenever `LinkFromPool` returns without error, by a new link
or by the already-exists skip, with a component that is an ordinary path
element, a source without separator that does not start with `.`, and a base
name other than `..`, the returned relative path is
`pool/<component>/<subdir>/<source>/<basename(filename)>`, where `subdir` is the
first four bytes of `source` if it starts with `lib` and its first byte
otherwise. -/
theorem LinkFromPool_relPath (r : Repository) (fs : FS)
    (pfx component filename hashMD5 source p : Str)
    (hok : (LinkFromPool r fs pfx component filename hashMD5 source).out = .ret (p, none))
    (hcomp : normalElem component) (hsep : ∀ c ∈ source, c ≠ '/')
    (hdot : source.head? ≠ some '.') (hbase : Base filename ≠ ['.', '.']) :
    p = publishedLayout component (bucketSpec source) source (Base filename) := by
  obtain ⟨src, subdir, fs1, hP, hlen, hb, hp, -, -⟩ :=
    LinkFromPool_ok r fs pfx component filename hashMD5 source p hok
  obtain ⟨hsub, hlib⟩ := bucket_eq source subdir hb
  obtain ⟨hb1, hb2⟩ := PoolPath_ok_Base r filename hashMD5 src hP
  have hall : ∀ s ∈ ["pool".toList, component, bucketSpec source, source, Base filename],
      normalElem s := by
    intro s hs
    simp only [List.mem_cons, List.mem_singleton, List.not_mem_nil, or_false] at hs
    rcases hs with h | h | h | h | h
    · rw [h]; decide
    · rw [h]; exact hcomp
    · rw [h]; exact normalElem_bucketSpec source hlen hlib hsep hdot
    · rw [h]; exact normalElem_source source hlen hsep hdot
    · rw [h]; exact normalElem_Base filename hb1 hb2 hbase
  rw [hp, hsub]
  unfold relPathOf
  rw [Join_elems _ (by simp) hall]
  simp [stringsJoin, publishedLayout, List.append_assoc]

/-- C4 (witness): `LinkFromPool("squeeze", "main",
"libfoo_1.0.deb", h, "libfoo")` returns `pool/main/libf/libfoo/libfoo_1.0.deb`,
and the source `bar` has the bucket `b`. -/
theorem LinkFromPool_relPath_witness :
    (LinkFromPool ⟨"/srv".toList⟩ fsPool "squeeze".toList "main".toList "libfoo_1.0.deb".toList
        digest "libfoo".toList).out = .ret ("pool/main/libf/libfoo/libfoo_1.0.deb".toList, none) ∧
    "pool/main/libf/libfoo/libfoo_1.0.deb".toList =
      publishedLayout "main".toList "libf".toList "libfoo".toList "libfoo_1.0.deb".toList ∧
    (LinkFromPool ⟨"/srv".toList⟩ fsPool "squeeze".toList "main".toList "libfoo_1.0.deb".toList
        digest "bar".toList).out = .ret ("pool/main/b/bar/libfoo_1.0.deb".toList, none) ∧
    "pool/main/b/bar/libfoo_1.0.deb".toList =
      publishedLayout "main".toList "b".toList "bar".toList "libfoo_1.0.deb".toList :=
  ⟨by decide,
    LinkFromPool_relPath ⟨"/srv".toList⟩ fsPool "squeeze".toList "main".toList
      "libfoo_1.0.deb".toList digest "libfoo".toList _ (by decide) (by decide) (by decide)
      (by decide) (by decide),
    by decide,
    LinkFromPool_relPath ⟨"/srv".toList⟩ fsPool "squeeze".toList "main".toList
      "libfoo_1.0.deb".toList digest "bar".toList _ (by decide) (by decide) (by decide)
      (by decide) (by decide)⟩

/-- C5 (the code at the failing input): the source `lib` has three bytes, the
check `len(source) < 2` lets it pass, and `source[:4]` panics: `LinkFromPool`
returns nothing, although `PoolPath` accepts the file name and the hash. -/
theorem LinkFromPool_source_lib_faults :
    2 ≤ "lib".toList.length ∧
    (∃ src, PoolPath ⟨"/srv".toList⟩ "libfoo_1.0.deb".toList digest = .ret (src, none)) ∧
    bucket "lib".toList = none ∧
    (LinkFromPool ⟨"/srv".toList⟩ fsPool "squeeze".toList "main".toList "libfoo_1.0.deb".toList
      digest "lib".toList).out = .fault :=
  ⟨by decide, ⟨_, rfl⟩, by decide, by decide⟩

/-- C6 (counterexample): with the one-byte source `x`, `LinkFromPool` returns
the invalid-filename error for the file name `/`, and panics for a two-byte
hash: the short-source error is not returned regardless of the other arguments. -/
theorem LinkFromPool_short_source_counterexample :
    "x".toList.length < 2 ∧
    (LinkFromPool ⟨"/srv".toList⟩ fsPool "squeeze".toList "main".toList "/".toList digest
      "x".toList).out = .ret ([], some (invalidFilename "/".toList)) ∧
    (LinkFromPool ⟨"/srv".toList⟩ fsPool "squeeze".toList "main".toList "/".toList digest
      "x".toList).out ≠ .ret ([], some (sourceTooShort "x".toList)) ∧
    (LinkFromPool ⟨"/srv".toList⟩ fsPool "squeeze".toList "main".toList "libfoo_1.0.deb".toList
      "ab".toList "x".toList).out = .fault ∧
    (LinkFromPool ⟨"/srv".toList⟩ fsPool "squeeze".toList "main".toList "libfoo_1.0.deb".toList
      "ab".toList "x".toList).out ≠ .ret ([], some (sourceTooShort "x".toList)) := by
  decide

/-- C6 (amended): for every source shorter than two bytes, every prefix and
component, and every file name and hash that `PoolPath` accepts, `LinkFromPool`
fails with the short-source error and an empty path, without any `os` call. -/
theorem LinkFromPool_short_source (r : Repository) (fs : FS)
    (pfx component filename hashMD5 source src : Str)
    (hP : PoolPath r filename hashMD5 = .ret (src, none)) (hlen : source.length < 2) :
    LinkFromPool r fs pfx component filename hashMD5 source =
      ⟨.ret ([], some (sourceTooShort source)), fs, []⟩ := by
  rw [LinkFromPool_eq, hP]
  simp only
  rw [if_pos hlen]

/-- C6 (witness): the source `x` with a file name and a hash that `PoolPath`
accepts gives the short-source error. -/
theorem LinkFromPool_short_source_witness :
    (LinkFromPool ⟨"/srv".toList⟩ fsPool "squeeze".toList "main".toList "libfoo_1.0.deb".toList
      digest "x".toList).out = .ret ([], some (sourceTooShort "x".toList)) :=
  congrArg LinkRun.out
    (LinkFromPool_short_source ⟨"/srv".toList⟩ fsPool "squeeze".toList "main".toList
      "libfoo_1.0.deb".toList digest "x".toList _ rfl (by decide))


/-- C7: `LinkFromPool` is idempotent on the file-system state.  If a call
returns the relative path `p` and no error, the same call on the resulting
state returns `p` and no error, makes no `os.Link` call, and leaves the state,
entries and contents, as it found it. -/
theorem LinkFromPool_idempotent (r : Repository) (fs : FS)
    (pfx component filename hashMD5 source p : Str)
    (hok : (LinkFromPool r fs pfx component filename hashMD5 source).out = .ret (p, none)) :
    (LinkFromPool r (LinkFromPool r fs pfx component filename hashMD5 source).fs
        pfx component filename hashMD5 source).out = .ret (p, none) ∧
    (∀ o n, OsCall.link o n ∉
      (LinkFromPool r (LinkFromPool r fs pfx component filename hashMD5 source).fs
        pfx component filename hashMD5 source).calls) ∧
    (LinkFromPool r (LinkFromPool r fs pfx component filename hashMD5 source).fs
        pfx component filename hashMD5 source).fs =
      (LinkFromPool r fs pfx component filename hashMD5 source).fs := by
  obtain ⟨src, subdir, fs1, hP, hlen, hb, hp, hm, hcase⟩ :=
    LinkFromPool_ok r fs pfx component filename hashMD5 source p hok
  have hdir : fs1.entry (publishedDir r pfx component subdir source) = some .dir :=
    MkdirAll_ok _ fs fs1 hm
  rcases hcase with ⟨⟨n, hn⟩, hrun⟩ | ⟨hnone, fs2, hl, hrun⟩
  · rw [hrun]
    simp only
    rw [LinkFromPool_skip r fs1 pfx component filename hashMD5 source src subdir n hP hlen hb
      hdir hn, hp]
    simp
  · obtain ⟨i, -, -, hfs2⟩ := Link_ok _ _ fs1 fs2 hl
    have hne : publishedDir r pfx component subdir source ≠
        publishedFile r pfx component subdir source filename := by
      intro h
      rw [h, hnone] at hdir
      simp at hdir
    have hdir2 : fs2.entry (publishedDir r pfx component subdir source) = some .dir := by
      rw [hfs2, insert_entry_of_ne _ _ _ _ hne]
      exact hdir
    have hdst2 : fs2.entry (publishedFile r pfx component subdir source filename) =
        some (.file i) := by
      rw [hfs2]
      exact insert_entry_self _ _ _
    rw [hrun]
    simp only
    rw [LinkFromPool_skip r fs2 pfx component filename hashMD5 source src subdir _ hP hlen hb
      hdir2 hdst2, hp]
    simp

/-- C7 (witness): linking `libfoo_1.0.deb` twice from a state that holds the
pool file. -/
theorem LinkFromPool_idempotent_witness :
    (LinkFromPool ⟨"/srv".toList⟩ fsPool "squeeze".toList "main".toList "libfoo_1.0.deb".toList
        digest "libfoo".toList).out = .ret ("pool/main/libf/libfoo/libfoo_1.0.deb".toList, none) ∧
    (LinkFromPool ⟨"/srv".toList⟩
        (LinkFromPool ⟨"/srv".toList⟩ fsPool "squeeze".toList "main".toList
          "libfoo_1.0.deb".toList digest "libfoo".toList).fs
        "squeeze".toList "main".toList "libfoo_1.0.deb".toList digest "libfoo".toList).out =
      .ret ("pool/main/libf/libfoo/libfoo_1.0.deb".toList, none) :=
  ⟨by decide,
    (LinkFromPool_idempotent ⟨"/srv".toList⟩ fsPool "squeeze".toList "main".toList
      "libfoo_1.0.deb".toList digest "libfoo".toList _ (by decide)).1⟩

/-- C8 (counterexample): a call that returns without error while the published
destination `<root>/public/<prefix>/<relPath>` and the pool file are different
files: the destination existed before the call as inode 2 with other content,
the probe finds it, and the call returns without linking. -/
theorem LinkFromPool_same_file_counterexample :
    (LinkFromPool ⟨"/srv".toList⟩ fsStale "squeeze".toList "main".toList "libfoo_1.0.deb".toList
        digest "libfoo".toList).out = .ret ("pool/main/libf/libfoo/libfoo_1.0.deb".toList, none) ∧
    PoolPath ⟨"/srv".toList⟩ "libfoo_1.0.deb".toList digest =
      .ret ("/srv/pool/01/23/libfoo_1.0.deb".toList, none) ∧
    (LinkFromPool ⟨"/srv".toList⟩ fsStale "squeeze".toList "main".toList "libfoo_1.0.deb".toList
        digest "libfoo".toList).fs.entry
      ("/srv/public/squeeze/".toList ++ "pool/main/libf/libfoo/libfoo_1.0.deb".toList) =
        some (.file 2) ∧
    (LinkFromPool ⟨"/srv".toList⟩ fsStale "squeeze".toList "main".toList "libfoo_1.0.deb".toList
        digest "libfoo".toList).fs.entry "/srv/pool/01/23/libfoo_1.0.deb".toList =
        some (.file 1) ∧
    (LinkFromPool ⟨"/srv".toList⟩ fsStale "squeeze".toList "main".toList "libfoo_1.0.deb".toList
        digest "libfoo".toList).fs.entry
      ("/srv/public/squeeze/".toList ++ "pool/main/libf/libfoo/libfoo_1.0.deb".toList) ≠
      (LinkFromPool ⟨"/srv".toList⟩ fsStale "squeeze".toList "main".toList
        "libfoo_1.0.deb".toList digest "libfoo".toList).fs.entry
        "/srv/pool/01/23/libfoo_1.0.deb".toList ∧
    (LinkFromPool ⟨"/srv".toList⟩ fsStale "squeeze".toList "main".toList "libfoo_1.0.deb".toList
        digest "libfoo".toList).fs.content 2 ≠
      (LinkFromPool ⟨"/srv".toList⟩ fsStale "squeeze".toList "main".toList
        "libfoo_1.0.deb".toList digest "libfoo".toList).fs.content 1 := by
  decide

/-- C8 (amended): whenever `LinkFromPool` returns without error after calling
`os.Link`, which it does when the probe finds no entry at the destination, the
call was `os.Link(PoolPath(filename, hashMD5), destination)` with the
destination `filepath.Join(<root>/public/<prefix>/pool/<component>/<subdir>/<source>,
basename(filename))`, and in the resulting state the destination and the pool
path are entries of the same inode. -/
theorem LinkFromPool_same_file (r : Repository) (fs : FS)
    (pfx component filename hashMD5 source p o n : Str)
    (hok : (LinkFromPool r fs pfx component filename hashMD5 source).out = .ret (p, none))
    (hlink : OsCall.link o n ∈ (LinkFromPool r fs pfx component filename hashMD5 source).calls) :
    PoolPath r filename hashMD5 = .ret (o, none) ∧
    (∃ subdir, bucket source = some subdir ∧
      n = publishedFile r pfx component subdir source filename) ∧
    ∃ i, (LinkFromPool r fs pfx component filename hashMD5 source).fs.entry n = some (.file i) ∧
      (LinkFromPool r fs pfx component filename hashMD5 source).fs.entry o = some (.file i) := by
  obtain ⟨src, subdir, fs1, hP, hlen, hb, hp, hm, hcase⟩ :=
    LinkFromPool_ok r fs pfx component filename hashMD5 source p hok
  rcases hcase with ⟨-, hrun⟩ | ⟨hnone, fs2, hl, hrun⟩
  · rw [hrun] at hlink
    simp at hlink
  · rw [hrun] at hlink ⊢
    simp only [List.mem_cons, List.mem_singleton, List.not_mem_nil, or_false, false_or,
      OsCall.link.injEq] at hlink
    simp only [reduceCtorEq, false_or] at hlink
    obtain ⟨rfl, rfl⟩ := hlink
    obtain ⟨i, hsrc, hdst, hfs2⟩ := Link_ok _ _ fs1 fs2 hl
    refine ⟨hP, ⟨subdir, hb, rfl⟩, i, ?_, ?_⟩
    · simp only
      rw [hfs2]
      exact insert_entry_self _ _ _
    · simp only
      have hne : o ≠ publishedFile r pfx component subdir source filename := by
        intro h
        rw [h, hdst] at hsrc
        simp at hsrc
      rw [hfs2, insert_entry_of_ne _ _ _ _ hne]
      exact hsrc

/-- C8 (witness): after linking from a state that holds the pool file, the
published file and the pool file are inode 1. -/
theorem LinkFromPool_same_file_witness :
    (LinkFromPool ⟨"/srv".toList⟩ fsPool "squeeze".toList "main".toList "libfoo_1.0.deb".toList
        digest "libfoo".toList).fs.entry
      "/srv/public/squeeze/pool/main/libf/libfoo/libfoo_1.0.deb".toList = some (.file 1) ∧
    ∃ i, (LinkFromPool ⟨"/srv".toList⟩ fsPool "squeeze".toList "main".toList
        "libfoo_1.0.deb".toList digest "libfoo".toList).fs.entry
        "/srv/public/squeeze/pool/main/libf/libfoo/libfoo_1.0.deb".toList = some (.file i) ∧
      (LinkFromPool ⟨"/srv".toList⟩ fsPool "squeeze".toList "main".toList
        "libfoo_1.0.deb".toList digest "libfoo".toList).fs.entry
        "/srv/pool/01/23/libfoo_1.0.deb".toList = some (.file i) :=
  ⟨by decide,
    (LinkFromPool_same_file ⟨"/srv".toList⟩ fsPool "squeeze".toList "main".toList
      "libfoo_1.0.deb".toList digest "libfoo".toList
      "pool/main/libf/libfoo/libfoo_1.0.deb".toList "/srv/pool/01/23/libfoo_1.0.deb".toList
      "/srv/public/squeeze/pool/main/libf/libfoo/libfoo_1.0.deb".toList
      (by decide) (by decide)).2.2⟩

/-- C9: invalid input is detected before any file-system call.  If
`LinkFromPool` returns the invalid-filename error (the base name is `.` or `/`)
or the short-source error, the state after the call is the state before it, no
`os` call was made, and the returned path is empty. -/
theorem LinkFromPool_invalid_input (r : Repository) (fs : FS)
    (pfx component filename hashMD5 source p : Str) (e : GoError)
    (hout : (LinkFromPool r fs pfx component filename hashMD5 source).out = .ret (p, some e))
    (hcause : e = invalidFilename (Base filename) ∨ e = sourceTooShort source) :
    (LinkFromPool r fs pfx component filename hashMD5 source).fs = fs ∧
    (LinkFromPool r fs pfx component filename hashMD5 source).calls = [] ∧
    p = [] := by
  have herr : ∃ msg, e = .errorf msg := by
    rcases hcause with h | h
    · exact ⟨_, h⟩
    · exact ⟨_, h⟩
  obtain ⟨msg, rfl⟩ := herr
  rw [LinkFromPool_eq] at hout ⊢
  cases hP : PoolPath r filename hashMD5 with
  | fault => rw [hP] at hout; simp at hout
  | ret a =>
    obtain ⟨src, e1⟩ := a
    cases e1 with
    | some err =>
      rw [hP] at hout
      simp only [Outcome.ret.injEq, Prod.mk.injEq] at hout
      exact ⟨rfl, rfl, hout.1.symm⟩
    | none =>
      rw [hP] at hout
      simp only at hout ⊢
      by_cases hlen : source.length < 2
      · rw [if_pos hlen] at hout ⊢
        simp only [Outcome.ret.injEq, Prod.mk.injEq] at hout
        exact ⟨rfl, rfl, hout.1.symm⟩
      · rw [if_neg hlen] at hout
        exfalso
        cases hb : bucket source with
        | none => rw [hb] at hout; simp at hout
        | some subdir =>
          rw [hb] at hout
          simp only at hout
          cases hm : MkdirAll (publishedDir r pfx component subdir source) fs with
          | mk e2 fs1 =>
            rw [hm] at hout
            cases e2 with
            | some err =>
              simp only [Outcome.ret.injEq, Prod.mk.injEq, Option.some.injEq] at hout
              obtain ⟨op, q, k, hk⟩ := MkdirAllAux_error_kind _ _ fs fs1 err hm
              rw [hk] at hout
              simp at hout
            | none =>
              simp only at hout
              cases hst : fs1.entry (publishedFile r pfx component subdir source filename) with
              | some n =>
                simp [Stat, hst] at hout
              | none =>
                simp only [Stat, hst] at hout
                cases hl : Link src (publishedFile r pfx component subdir source filename) fs1 with
                | mk e3 fs2 =>
                  rw [hl] at hout
                  simp only [Outcome.ret.injEq, Prod.mk.injEq] at hout
                  obtain ⟨op, a, b, k, hk⟩ := Link_error_kind _ _ fs1 fs2 _ (hout.2 ▸ hl)
                  simp at hk

/-- C9 (witness): the file name `/`, and the source `x`, leave the state as it was. -/
theorem LinkFromPool_invalid_input_witness :
    (LinkFromPool ⟨"/srv".toList⟩ fsPool "squeeze".toList "main".toList "/".toList digest
        "libfoo".toList).out = .ret ([], some (invalidFilename (Base "/".toList))) ∧
    ((LinkFromPool ⟨"/srv".toList⟩ fsPool "squeeze".toList "main".toList "/".toList digest
        "libfoo".toList).fs = fsPool ∧
      (LinkFromPool ⟨"/srv".toList⟩ fsPool "squeeze".toList "main".toList "/".toList digest
        "libfoo".toList).calls = [] ∧ ([] : Str) = []) ∧
    (LinkFromPool ⟨"/srv".toList⟩ fsPool "squeeze".toList "main".toList "libfoo_1.0.deb".toList
        digest "x".toList).fs = fsPool :=
  ⟨by decide,
    LinkFromPool_invalid_input ⟨"/srv".toList⟩ fsPool "squeeze".toList "main".toList "/".toList
      digest "libfoo".toList [] _ (by decide) (Or.inl rfl),
    (LinkFromPool_invalid_input ⟨"/srv".toList⟩ fsPool "squeeze".toList "main".toList
      "libfoo_1.0.deb".toList digest "x".toList [] (sourceTooShort "x".toList) (by decide)
      (Or.inr rfl)).1⟩

/-! ## More claims on `PoolPath` -/

theorem take_two_of_take_four (h1 h2 : Str) (h : h1.take 4 = h2.take 4) :
    h1.take 2 = h2.take 2 := by
  have e1 : h1.take 2 = (h1.take 4).take 2 := by rw [List.take_take]; rfl
  have e2 : h2.take 2 = (h2.take 4).take 2 := by rw [List.take_take]; rfl
  rw [e1, e2, h]

/-- C11: `PoolPath` depends on the hash only through its first four bytes.  Two
hashes of at least four bytes with the same first four bytes give the same
result, path and error, for every root and file name; and `PoolPath` is a
function of the root, the file name and the hash, so equal arguments give
equal results. -/
theorem PoolPath_hash_first_four (r : Repository) (filename h1 h2 : Str)
    (hl1 : 4 ≤ h1.length) (hl2 : 4 ≤ h2.length) (h : h1.take 4 = h2.take 4) :
    PoolPath r filename h1 = PoolPath r filename h2 ∧
    (∀ (r2 : Repository) (f2 g2 : Str), r2 = r → f2 = filename → g2 = h1 →
      PoolPath r2 f2 g2 = PoolPath r filename h1) := by
  refine ⟨?_, ?_⟩
  · by_cases hb : Base filename = ['.'] ∨ Base filename = ['/']
    · rw [PoolPath_of_invalid r filename h1 hb, PoolPath_of_invalid r filename h2 hb]
    · rw [not_or] at hb
      rw [PoolPath_of_valid r filename h1 hb.1 hb.2 hl1,
        PoolPath_of_valid r filename h2 hb.1 hb.2 hl2, h, take_two_of_take_four h1 h2 h]
  · intro r2 f2 g2 e1 e2 e3
    rw [e1, e2, e3]

/-- C11 (witness): two digests that differ after their fourth byte give the
same pool path. -/
theorem PoolPath_hash_first_four_witness :
    PoolPath ⟨"/srv".toList⟩ "x.deb".toList "0123456789abcdef0123456789abcdef".toList =
      PoolPath ⟨"/srv".toList⟩ "x.deb".toList "0123ffffffffffffffffffffffffffff".toList :=
  (PoolPath_hash_first_four ⟨"/srv".toList⟩ "x.deb".toList
    "0123456789abcdef0123456789abcdef".toList "0123ffffffffffffffffffffffffffff".toList
    (by decide) (by decide) (by decide)).1

/-- C13 (counterexample): the path `PoolPath` returns for the root `/srv`
begins with the root, so it contains it. -/
theorem PoolPath_relative_counterexample :
    "/srv".toList ≠ [] ∧
    PoolPath ⟨"/srv".toList⟩ "libfoo_1.0.deb".toList digest =
      .ret ("/srv/pool/01/23/libfoo_1.0.deb".toList, none) ∧
    "/srv".toList <+: "/srv/pool/01/23/libfoo_1.0.deb".toList ∧
    "/srv".toList <:+: "/srv/pool/01/23/libfoo_1.0.deb".toList :=
  ⟨by decide, by decide, ⟨"/pool/01/23/libfoo_1.0.deb".toList, by decide⟩,
    ⟨[], "/pool/01/23/libfoo_1.0.deb".toList, by decide⟩⟩

/-- C13 (amended): for every clean root, every file name whose base name is
none of `.`, `/` and `..`, and every hash of at least four bytes with ordinary
buckets, the path `PoolPath` returns is the full path of the pool file: it
begins with the archive root followed by `/pool/`, and so contains the root. -/
theorem PoolPath_full_path (rooted : Bool) (segs : List Str) (filename hashMD5 : Str)
    (hne : segs ≠ []) (hsegs : ∀ s ∈ segs, normalElem s)
    (h1 : Base filename ≠ ['.']) (h2 : Base filename ≠ ['/']) (h3 : Base filename ≠ ['.', '.'])
    (hh : 4 ≤ hashMD5.length) (hb1 : normalElem (hashMD5.take 2))
    (hb2 : normalElem ((hashMD5.take 4).drop 2)) :
    ∃ p, PoolPath ⟨pathOf rooted segs⟩ filename hashMD5 = .ret (p, none) ∧
      (pathOf rooted segs ++ "/pool/".toList) <+: p ∧ pathOf rooted segs <:+: p := by
  have hmore : ∀ s ∈ ["pool".toList, hashMD5.take 2, (hashMD5.take 4).drop 2, Base filename],
      normalElem s := by
    intro s hs
    simp only [List.mem_cons, List.mem_singleton, List.not_mem_nil, or_false] at hs
    rcases hs with h | h | h | h
    · rw [h]; decide
    · rw [h]; exact hb1
    · rw [h]; exact hb2
    · rw [h]; exact normalElem_Base filename h1 h2 h3
  have hJ := Join_pathOf rooted segs _ hne hsegs (by simp) hmore
  have hpre : (pathOf rooted segs ++ "/pool/".toList) <+:
      pathOf rooted (segs ++ ["pool".toList, hashMD5.take 2, (hashMD5.take 4).drop 2,
        Base filename]) := by
    refine ⟨hashMD5.take 2 ++ ['/'] ++ (hashMD5.take 4).drop 2 ++ ['/'] ++ Base filename, ?_⟩
    unfold pathOf
    rw [stringsJoin_append segs _ hne (by simp)]
    simp [stringsJoin, List.append_assoc]
  refine ⟨_, PoolPath_of_valid _ _ _ h1 h2 hh, ?_, ?_⟩
  · simp only
    rw [hJ]
    exact hpre
  · simp only
    rw [hJ]
    exact ((List.prefix_append _ _).trans hpre).isInfix

/-- C13 (witness): the root `/srv/aptly` is the beginning of the pool path. -/
theorem PoolPath_full_path_witness :
    ∃ p, PoolPath ⟨"/srv/aptly".toList⟩ "dir/x.deb".toList digest = .ret (p, none) ∧
      ("/srv/aptly".toList ++ "/pool/".toList) <+: p ∧ "/srv/aptly".toList <:+: p :=
  PoolPath_full_path true ["srv".toList, "aptly".toList] "dir/x.deb".toList digest
    (by decide) (by decide) (by decide) (by decide) (by decide) (by decide) (by decide)
    (by decide)

/-- C18 (the code at the failing input): with the clean absolute root `/srv`,
a lowercase hexadecimal digest and the file name `..`, whose base name `..` is
neither `.` nor `/`, `PoolPath` succeeds and returns `/srv/pool/01`, the parent
of the bucket directory `/srv/pool/01/23`: the path does not begin with the
bucket directory followed by a separator. -/
theorem PoolPath_dotdot_escapes :
    Base "..".toList = "..".toList ∧
    PoolPath ⟨"/srv".toList⟩ "..".toList digest = .ret ("/srv/pool/01".toList, none) ∧
    ¬ ("/srv/pool/01/23/".toList <+: "/srv/pool/01".toList) ∧
    PoolPath ⟨"/srv".toList⟩ "a/..".toList digest = .ret ("/srv/pool/01".toList, none) := by
  refine ⟨by decide, by decide, ?_, by decide⟩
  intro h
  have := h.length_le
  revert this
  decide

/-! ## More claims on `LinkFromPool` -/

/-- C16: `LinkFromPool` propagates the failure of `PoolPath` verbatim and
first.  If `PoolPath(filename, hashMD5)` returns an error, then for every
prefix, component and source, short sources included, `LinkFromPool` returns
that error with an empty path, makes no `os` call and leaves the state as it was. -/
theorem LinkFromPool_PoolPath_error (r : Repository) (fs : FS)
    (pfx component filename hashMD5 source p : Str) (e : GoError)
    (hP : PoolPath r filename hashMD5 = .ret (p, some e)) :
    LinkFromPool r fs pfx component filename hashMD5 source = ⟨.ret ([], some e), fs, []⟩ := by
  rw [LinkFromPool_eq, hP]

/-- C16 (witness): the file name `/` with the one-byte source `x` gives the
invalid-filename error of `PoolPath`, not the short-source error. -/
theorem LinkFromPool_PoolPath_error_witness :
    (LinkFromPool ⟨"/srv".toList⟩ fsPool "squeeze".toList "main".toList "/".toList digest
      "x".toList).out = .ret ([], some (invalidFilename "/".toList)) :=
  congrArg LinkRun.out
    (LinkFromPool_PoolPath_error ⟨"/srv".toList⟩ fsPool "squeeze".toList "main".toList
      "/".toList digest "x".toList [] (invalidFilename "/".toList) (by decide))

/-! ## The result of `Clean` on a relative path -/

theorem head?_take_ne (out : Str) (k : Nat) (h : out.head? ≠ some '/') :
    (out.take k).head? ≠ some '/' := by
  cases out with
  | nil => simp
  | cons a t =>
    cases k with
    | zero => simp
    | succ k => simpa using h

theorem head?_append_ne (out s : Str) (hne : out ≠ []) (h : out.head? ≠ some '/') :
    (out ++ s).head? ≠ some '/' := by
  cases out with
  | nil => exact absurd rfl hne
  | cons a t => simpa using h

/-- On a path that is not rooted the loop of `Clean` never writes a leading
separator. -/
theorem cleanLoop_relative_head (fuel : Nat) : ∀ (rest out : Str) (dotdot : Nat),
    out.head? ≠ some '/' → (cleanLoop false fuel rest out dotdot).head? ≠ some '/' := by
  induction fuel with
  | zero => intro rest out dotdot h; simpa [cleanLoop] using h
  | succ fuel ih =>
    intro rest out dotdot h
    cases rest with
    | nil => simpa [cleanLoop] using h
    | cons c t =>
      rw [cleanLoop]
      split
      · exact ih _ _ _ h
      · rename_i hc
        split
        · exact ih _ _ _ h
        · split
          · split
            · exact ih _ _ _ (head?_take_ne out _ h)
            · simp only [if_true]
              apply ih
              by_cases ho : 0 < out.length
              · rw [if_pos ho, List.append_assoc]
                exact head?_append_ne out _ (List.length_pos.1 ho) h
              · have hnil : out = [] := List.length_eq_zero.1 (by omega)
                subst hnil
                simp
          · apply ih
            have hn : notSeparator c = true := by simpa [notSeparator] using hc
            by_cases ho : out = []
            · subst ho
              simp only [List.length_nil, ne_eq, not_true_eq_false, and_false, or_false,
                Bool.false_eq_true, false_and, if_false, List.nil_append]
              rw [List.takeWhile_cons_of_pos hn]
              simp only [List.head?_cons, ne_eq, Option.some.injEq]
              exact (notSeparator_iff c).1 hn
            · have hl : out.length ≠ 0 := fun h0 => ho (List.length_eq_zero.1 h0)
              simp only [Bool.false_eq_true, false_and, true_and, false_or, ne_eq, hl,
                not_false_eq_true, if_true, List.append_assoc]
              exact head?_append_ne out _ ho h

/-- The result of `Clean` on a path that does not begin with a separator does
not begin with a separator. -/
theorem Clean_relative_head (c : Char) (t : Str) (hc : c ≠ '/') :
    (Clean (c :: t)).head? ≠ some '/' := by
  have hsep : IsPathSeparator c = false := by simpa [IsPathSeparator] using hc
  simp only [Clean, hsep, Bool.false_eq_true, if_false]
  split
  · simp
  · exact cleanLoop_relative_head _ _ _ _ (by simp)

/-- The relative path of `LinkFromPool` never begins with a separator. -/
theorem relPathOf_head (component subdir source filename : Str) :
    (relPathOf component subdir source filename).head? ≠ some '/' := by
  have h : relPathOf component subdir source filename =
      Clean ('p' :: ("ool".toList ++ ['/'] ++
        stringsJoin [component, subdir, source, Base filename] ['/'])) := by
    unfold relPathOf Join
    rw [List.dropWhile_cons_of_neg (by decide)]
    rfl
  rw [h]
  exact Clean_relative_head _ _ (by decide)

/-- For an ordinary component, a source without separator that does not start
with `.`, and a base name that is an ordinary element, the relative path of
`LinkFromPool` is the five segments joined by single separators. -/
theorem relPathOf_layout (component source filename : Str)
    (hlen : 2 ≤ source.length) (hlib : "lib".toList <+: source → 4 ≤ source.length)
    (hcomp : normalElem component) (hsep : ∀ c ∈ source, c ≠ '/')
    (hdot : source.head? ≠ some '.') (hbase : normalElem (Base filename)) :
    relPathOf component (bucketSpec source) source filename =
      publishedLayout component (bucketSpec source) source (Base filename) := by
  have hall : ∀ s ∈ ["pool".toList, component, bucketSpec source, source, Base filename],
      normalElem s := by
    intro s hs
    simp only [List.mem_cons, List.mem_singleton, List.not_mem_nil, or_false] at hs
    rcases hs with h | h | h | h | h
    · rw [h]; decide
    · rw [h]; exact hcomp
    · rw [h]; exact normalElem_bucketSpec source hlen hlib hsep hdot
    · rw [h]; exact normalElem_source source hlen hsep hdot
    · rw [h]; exact hbase
  unfold relPathOf
  rw [Join_elems _ (by simp) hall]
  simp [stringsJoin, publishedLayout, List.append_assoc]

/-- C12 (counterexample): successful calls whose relative path begins with the
root, the relative root `pool`, and whose relative path begins with `public/`,
the component `../public`. -/
theorem LinkFromPool_relPath_trace_counterexample :
    ((LinkFromPool ⟨"pool".toList⟩ fsRelative "squeeze".toList "main".toList
        "libfoo_1.0.deb".toList digest "libfoo".toList).out =
        .ret ("pool/main/libf/libfoo/libfoo_1.0.deb".toList, none) ∧
      "pool".toList <+: "pool/main/libf/libfoo/libfoo_1.0.deb".toList) ∧
    ((LinkFromPool ⟨"/srv".toList⟩ fsPool "squeeze".toList "../public".toList
        "libfoo_1.0.deb".toList digest "libfoo".toList).out =
        .ret ("public/libf/libfoo/libfoo_1.0.deb".toList, none) ∧
      "public/".toList <+: "public/libf/libfoo/libfoo_1.0.deb".toList) :=
  ⟨⟨by decide, ⟨"/main/libf/libfoo/libfoo_1.0.deb".toList, by decide⟩⟩,
    ⟨by decide, ⟨"libf/libfoo/libfoo_1.0.deb".toList, by decide⟩⟩⟩

/-- C12 (amended): two successful calls of `LinkFromPool` that agree on
component, file name and source return the same relative path, whatever their
roots, prefixes, hashes and states; the path does not begin with `/`, hence not
with a root that is absolute; and for an ordinary component, a source without
separator that does not start with `.`, and a base name other than `..`, it
begins with `pool/` and so not with `public/`. -/
theorem LinkFromPool_relPath_trace (r1 r2 : Repository) (fs1 fs2 : FS)
    (pfx1 pfx2 hash1 hash2 component filename source p1 p2 : Str)
    (hok1 : (LinkFromPool r1 fs1 pfx1 component filename hash1 source).out = .ret (p1, none))
    (hok2 : (LinkFromPool r2 fs2 pfx2 component filename hash2 source).out = .ret (p2, none)) :
    p1 = p2 ∧ p1.head? ≠ some '/' ∧
    (r1.RootPath.head? = some '/' → ¬ (r1.RootPath <+: p1)) ∧
    (normalElem component → (∀ c ∈ source, c ≠ '/') → source.head? ≠ some '.' →
      Base filename ≠ ['.', '.'] →
      "pool/".toList <+: p1 ∧ ¬ ("public/".toList <+: p1)) := by
  obtain ⟨src1, sub1, g1, hP1, hlen, hb1, hp1, -, -⟩ :=
    LinkFromPool_ok r1 fs1 pfx1 component filename hash1 source p1 hok1
  obtain ⟨src2, sub2, g2, hP2, -, hb2, hp2, -, -⟩ :=
    LinkFromPool_ok r2 fs2 pfx2 component filename hash2 source p2 hok2
  have hsub : sub1 = sub2 := by
    rw [hb1] at hb2
    exact Option.some.inj hb2
  have hhead : p1.head? ≠ some '/' := by
    rw [hp1]; exact relPathOf_head _ _ _ _
  refine ⟨by rw [hp1, hp2, hsub], hhead, ?_, ?_⟩
  · intro hroot hpre
    obtain ⟨t, ht⟩ := hpre
    apply hhead
    rw [← ht]
    cases hr : r1.RootPath with
    | nil => rw [hr] at hroot; simp at hroot
    | cons a u =>
      rw [hr] at hroot
      simpa using hroot
  · intro hcomp hsep hdot hbase
    obtain ⟨hspec, hlib⟩ := bucket_eq source sub1 hb1
    obtain ⟨hv1, hv2⟩ := PoolPath_ok_Base r1 filename hash1 src1 hP1
    have hlay := relPathOf_layout component source filename hlen hlib hcomp hsep hdot
      (normalElem_Base filename hv1 hv2 hbase)
    rw [← hspec] at hlay
    have hpool : "pool/".toList <+: p1 := by
      rw [hp1, hlay]
      exact ⟨component ++ ['/'] ++ sub1 ++ ['/'] ++ source ++ ['/'] ++ Base filename, by
        simp [publishedLayout, List.append_assoc]⟩
    refine ⟨hpool, ?_⟩
    intro hpub
    obtain ⟨t1, ht1⟩ := hpool
    obtain ⟨t2, ht2⟩ := hpub
    rw [← ht1] at ht2
    simp at ht2

/-- C12 (witness): the same package linked under the roots `/srv` and `pool`
gets the same relative path, which does not begin with `/`. -/
theorem LinkFromPool_relPath_trace_witness :
    "pool/main/libf/libfoo/libfoo_1.0.deb".toList = "pool/main/libf/libfoo/libfoo_1.0.deb".toList ∧
    ("pool/main/libf/libfoo/libfoo_1.0.deb".toList).head? ≠ some '/' :=
  ⟨(LinkFromPool_relPath_trace ⟨"/srv".toList⟩ ⟨"pool".toList⟩ fsPool fsRelative
      "squeeze".toList "wheezy".toList digest digest "main".toList "libfoo_1.0.deb".toList
      "libfoo".toList "pool/main/libf/libfoo/libfoo_1.0.deb".toList
      "pool/main/libf/libfoo/libfoo_1.0.deb".toList (by decide) (by decide)).1,
    (LinkFromPool_relPath_trace ⟨"/srv".toList⟩ ⟨"pool".toList⟩ fsPool fsRelative
      "squeeze".toList "wheezy".toList digest digest "main".toList "libfoo_1.0.deb".toList
      "libfoo".toList "pool/main/libf/libfoo/libfoo_1.0.deb".toList
      "pool/main/libf/libfoo/libfoo_1.0.deb".toList (by decide) (by decide)).2.1⟩

/-! ## What the `os` calls leave unchanged -/

/-- The changes a call may make to the state `fs`: the contents stay, every
entry stays, and a new entry is allowed by `new`. -/
theorem Mkdir_frame (name : Str) (fs fs1 : FS) (e : Option GoError)
    (h : Mkdir name fs = (e, fs1)) :
    fs1 = fs ∨ (fs.entry name = none ∧ fs1 = fs.insert name .dir) := by
  unfold Mkdir at h
  split at h
  · simp only [Prod.mk.injEq] at h
    exact Or.inl h.2.symm
  · rename_i hn
    split at h
    · simp only [Prod.mk.injEq] at h
      exact Or.inr ⟨hn, h.2.symm⟩
    · split at h
      · simp only [Prod.mk.injEq] at h
        exact Or.inr ⟨hn, h.2.symm⟩
      · simp only [Prod.mk.injEq] at h
        exact Or.inl h.2.symm
      · simp only [Prod.mk.injEq] at h
        exact Or.inl h.2.symm

theorem Link_frame (o n : Str) (fs fs1 : FS) (e : Option GoError)
    (h : Link o n fs = (e, fs1)) :
    fs1 = fs ∨ (fs.entry n = none ∧ ∃ i, fs1 = fs.insert n (.file i)) := by
  unfold Link at h
  split at h
  · simp only [Prod.mk.injEq] at h
    exact Or.inl h.2.symm
  · simp only [Prod.mk.injEq] at h
    exact Or.inl h.2.symm
  · rename_i i ho
    split at h
    · simp only [Prod.mk.injEq] at h
      exact Or.inl h.2.symm
    · rename_i hn
      split at h
      · simp only [Prod.mk.injEq] at h
        exact Or.inr ⟨hn, i, h.2.symm⟩
      · split at h
        · simp only [Prod.mk.injEq] at h
          exact Or.inr ⟨hn, i, h.2.symm⟩
        · simp only [Prod.mk.injEq] at h
          exact Or.inl h.2.symm
        · simp only [Prod.mk.injEq] at h
          exact Or.inl h.2.symm

theorem insert_content (fs : FS) (name : Str) (n : Node) :
    (fs.insert name n).content = fs.content := rfl

/-- The last step of `MkdirAll`, `os.Mkdir` on the path itself, keeps the
contents and every entry and adds at most the directory `path`. -/
theorem Mkdir_step_frame (path : Str) (chain : List Str) (fs fs2 fs3 : FS) (e3 : Option GoError)
    (hst : fs.entry path = none) (hself : path ∈ chain)
    (hc2 : fs2.content = fs.content)
    (hq2 : ∀ q, fs2.entry q = fs.entry q ∨
      (fs.entry q = none ∧ fs2.entry q = some .dir ∧ q ∈ chain))
    (hm : Mkdir path fs2 = (e3, fs3)) :
    fs3.content = fs.content ∧
    ∀ q, fs3.entry q = fs.entry q ∨
      (fs.entry q = none ∧ fs3.entry q = some .dir ∧ q ∈ chain) := by
  rcases Mkdir_frame path fs2 fs3 e3 hm with h3 | ⟨-, h4⟩
  · rw [h3]; exact ⟨hc2, hq2⟩
  · rw [h4]
    refine ⟨hc2, fun q => ?_⟩
    by_cases hqp : q = path
    · rw [hqp]
      exact Or.inr ⟨hst, insert_entry_self _ _ _, hself⟩
    · rw [insert_entry_of_ne _ _ _ _ hqp]
      exact hq2 q

/-- Whether it succeeds or fails, `MkdirAll` keeps the contents and every
entry, and adds only directories along the path. -/
theorem MkdirAllAux_frame (fuel : Nat) : ∀ (path : Str) (fs fs1 : FS) (e : Option GoError),
    MkdirAllAux fuel path fs = (e, fs1) →
    fs1.content = fs.content ∧
    ∀ q, fs1.entry q = fs.entry q ∨
      (fs.entry q = none ∧ fs1.entry q = some .dir ∧ q ∈ dirChainAux fuel path) := by
  induction fuel with
  | zero =>
    intro path fs fs1 e h
    simp only [MkdirAllAux, Prod.mk.injEq] at h
    rw [← h.2]
    exact ⟨rfl, fun q => Or.inl rfl⟩
  | succ fuel ih =>
    intro path fs fs1 e h
    rw [MkdirAllAux] at h
    have hself : path ∈ dirChainAux (fuel + 1) path := by
      simp [dirChainAux]
    cases hst : fs.entry path with
    | some n =>
      cases n with
      | dir =>
        simp only [Stat, hst, Prod.mk.injEq] at h
        rw [← h.2]
        exact ⟨rfl, fun q => Or.inl rfl⟩
      | file i =>
        simp only [Stat, hst, Prod.mk.injEq] at h
        rw [← h.2]
        exact ⟨rfl, fun q => Or.inl rfl⟩
    | none =>
      simp only [Stat, hst] at h
      cases hp : parentDir path with
      | none =>
        simp only [hp] at h
        cases hm : Mkdir path fs with
        | mk e2 fs3 =>
          rw [hm] at h
          have hfr := Mkdir_step_frame path _ fs fs fs3 e2 hst hself rfl
            (fun q => Or.inl rfl) hm
          cases e2 with
          | none =>
            dsimp only at h
            rw [← (Prod.mk.inj h).2]; exact hfr
          | some err =>
            dsimp only at h
            split at h
            · rw [← (Prod.mk.inj h).2]; exact hfr
            · rw [← (Prod.mk.inj h).2]; exact hfr
      | some p =>
        simp only [hp] at h
        cases hr : MkdirAllAux fuel p fs with
        | mk e1 fs2 =>
          rw [hr] at h
          obtain ⟨hc, hq⟩ := ih p fs fs2 e1 hr
          have hq2 : ∀ q, fs2.entry q = fs.entry q ∨
              (fs.entry q = none ∧ fs2.entry q = some .dir ∧
                q ∈ dirChainAux (fuel + 1) path) := by
            intro q
            rcases hq q with h3 | ⟨h3, h4, h5⟩
            · exact Or.inl h3
            · refine Or.inr ⟨h3, h4, ?_⟩
              simp only [dirChainAux, hp, List.mem_cons]
              exact Or.inr h5
          cases e1 with
          | some err =>
            dsimp only at h
            rw [← (Prod.mk.inj h).2]
            exact ⟨hc, hq2⟩
          | none =>
            dsimp only at h
            cases hm : Mkdir path fs2 with
            | mk e2 fs3 =>
              simp only [hm] at h
              have hfr := Mkdir_step_frame path _ fs fs2 fs3 e2 hst hself hc hq2 hm
              cases e2 with
              | none =>
                dsimp only at h
                rw [← (Prod.mk.inj h).2]; exact hfr
              | some err =>
                dsimp only at h
                split at h
                · rw [← (Prod.mk.inj h).2]; exact hfr
                · rw [← (Prod.mk.inj h).2]; exact hfr

/-- The state a run of `LinkFromPool` leaves: the state it started from, or
the state after `MkdirAll`, or the state after `MkdirAll` and `Link`. -/
theorem LinkFromPool_fs_cases (r : Repository) (fs : FS)
    (pfx component filename hashMD5 source : Str) :
    (LinkFromPool r fs pfx component filename hashMD5 source).fs = fs ∨
    ∃ subdir e1 fs1, bucket source = some subdir ∧
      MkdirAll (publishedDir r pfx component subdir source) fs = (e1, fs1) ∧
      ((LinkFromPool r fs pfx component filename hashMD5 source).fs = fs1 ∨
        ∃ src e2 fs2,
          Link src (publishedFile r pfx component subdir source filename) fs1 = (e2, fs2) ∧
          (LinkFromPool r fs pfx component filename hashMD5 source).fs = fs2) := by
  rw [LinkFromPool_eq]
  cases hP : PoolPath r filename hashMD5 with
  | fault => exact Or.inl rfl
  | ret a =>
    obtain ⟨src, e⟩ := a
    cases e with
    | some err => exact Or.inl rfl
    | none =>
      dsimp only
      by_cases hlen : source.length < 2
      · rw [if_pos hlen]
        exact Or.inl rfl
      · rw [if_neg hlen]
        cases hb : bucket source with
        | none => exact Or.inl rfl
        | some subdir =>
          right
          dsimp only
          cases hm : MkdirAll (publishedDir r pfx component subdir source) fs with
          | mk e1 fs1 =>
            refine ⟨subdir, e1, fs1, rfl, hm, ?_⟩
            cases e1 with
            | some err => exact Or.inl rfl
            | none =>
              dsimp only
              cases hst : Stat (publishedFile r pfx component subdir source filename) fs1 with
              | ok n => exact Or.inl rfl
              | error err =>
                dsimp only
                cases hl : Link src (publishedFile r pfx component subdir source filename) fs1 with
                | mk e2 fs2 => exact Or.inr ⟨src, e2, fs2, hl, rfl⟩

/-- C17: `LinkFromPool` only adds to the file system.  Whether the call
succeeds, fails or panics, every entry that existed before is there afterwards
with the same node, the contents of all inodes are unchanged, and every new
entry is either a directory along the destination directory path or a file
entry at the destination path. -/
theorem LinkFromPool_only_adds (r : Repository) (fs : FS)
    (pfx component filename hashMD5 source : Str) :
    (∀ q n, fs.entry q = some n →
      (LinkFromPool r fs pfx component filename hashMD5 source).fs.entry q = some n) ∧
    (LinkFromPool r fs pfx component filename hashMD5 source).fs.content = fs.content ∧
    (∀ q n, fs.entry q = none →
      (LinkFromPool r fs pfx component filename hashMD5 source).fs.entry q = some n →
      ∃ subdir, bucket source = some subdir ∧
        ((n = .dir ∧ q ∈ dirChain (publishedDir r pfx component subdir source)) ∨
          (q = publishedFile r pfx component subdir source filename ∧ ∃ i, n = .file i))) := by
  rcases LinkFromPool_fs_cases r fs pfx component filename hashMD5 source with
    h0 | ⟨subdir, e1, fs1, hb, hm, hrest⟩
  · rw [h0]
    refine ⟨fun q n h => h, rfl, fun q n h1 h2 => ?_⟩
    rw [h1] at h2
    simp at h2
  · obtain ⟨hc1, hq1⟩ := MkdirAllAux_frame _ _ fs fs1 e1 hm
    have hk1 : ∀ q n, fs.entry q = some n → fs1.entry q = some n := by
      intro q n h
      rcases hq1 q with h3 | ⟨h3, -, -⟩
      · rw [h3]; exact h
      · rw [h3] at h; simp at h
    have hk3 : ∀ q n, fs.entry q = none → fs1.entry q = some n →
        n = .dir ∧ q ∈ dirChain (publishedDir r pfx component subdir source) := by
      intro q n h1 h2
      rcases hq1 q with h3 | ⟨-, h4, h5⟩
      · rw [h3, h1] at h2; simp at h2
      · rw [h4] at h2
        exact ⟨(Option.some.inj h2).symm, h5⟩
    rcases hrest with h1 | ⟨src, e2, fs2, hl, h2⟩
    · rw [h1]
      exact ⟨hk1, hc1, fun q n g1 g2 => ⟨subdir, hb, Or.inl (hk3 q n g1 g2)⟩⟩
    · rw [h2]
      rcases Link_frame _ _ fs1 fs2 e2 hl with h3 | ⟨h3, i, h4⟩
      · rw [h3]
        exact ⟨hk1, hc1, fun q n g1 g2 => ⟨subdir, hb, Or.inl (hk3 q n g1 g2)⟩⟩
      · rw [h4]
        refine ⟨fun q n h => ?_, hc1, fun q n g1 g2 => ?_⟩
        · have := hk1 q n h
          have hne : q ≠ publishedFile r pfx component subdir source filename := by
            intro hq
            rw [hq, h3] at this
            simp at this
          rw [insert_entry_of_ne _ _ _ _ hne]
          exact this
        · by_cases hq : q = publishedFile r pfx component subdir source filename
          · rw [hq, insert_entry_self] at g2
            exact ⟨subdir, hb, Or.inr ⟨hq, i, (Option.some.inj g2).symm⟩⟩
          · rw [insert_entry_of_ne _ _ _ _ hq] at g2
            exact ⟨subdir, hb, Or.inl (hk3 q n g1 g2)⟩

/-- C17 (witness): after linking from a state that holds the pool file, the
pool file is still inode 1 and the contents are those of before. -/
theorem LinkFromPool_only_adds_witness :
    (LinkFromPool ⟨"/srv".toList⟩ fsPool "squeeze".toList "main".toList "libfoo_1.0.deb".toList
        digest "libfoo".toList).fs.entry "/srv/pool/01/23/libfoo_1.0.deb".toList =
      some (.file 1) ∧
    (LinkFromPool ⟨"/srv".toList⟩ fsPool "squeeze".toList "main".toList "libfoo_1.0.deb".toList
        digest "libfoo".toList).fs.content = fsPool.content :=
  ⟨(LinkFromPool_only_adds ⟨"/srv".toList⟩ fsPool "squeeze".toList "main".toList
      "libfoo_1.0.deb".toList digest "libfoo".toList).1 _ _ (by decide),
    (LinkFromPool_only_adds ⟨"/srv".toList⟩ fsPool "squeeze".toList "main".toList
      "libfoo_1.0.deb".toList digest "libfoo".toList).2.1⟩

/-! ## `LinkFromPool` and the errors of the `os` calls -/

/-- The body of `LinkFromPoolOn` written with the names `bucket`,
`publishedDir`, `publishedFile` and `relPathOf`. -/
theorem LinkFromPoolOn_eq {σ : Type} (os : OsCalls σ) (r : Repository) (st : σ)
    (pfx component filename hashMD5 source : Str) :
    LinkFromPoolOn os r st pfx component filename hashMD5 source =
      match PoolPath r filename hashMD5 with
      | .fault => ⟨.fault, st, []⟩
      | .ret (_, some err) => ⟨.ret ([], some err), st, []⟩
      | .ret (src, none) =>
        if source.length < 2 then ⟨.ret ([], some (sourceTooShort source)), st, []⟩
        else
          match bucket source with
          | none => ⟨.fault, st, []⟩
          | some subdir =>
            match os.MkdirAll (publishedDir r pfx component subdir source) st with
            | (some err, st1) =>
              ⟨.ret ([], some err), st1, [.mkdirAll (publishedDir r pfx component subdir source)]⟩
            | (none, st1) =>
              match os.Stat (publishedFile r pfx component subdir source filename) st1 with
              | .ok _ =>
                ⟨.ret (relPathOf component subdir source filename, none), st1,
                  [.mkdirAll (publishedDir r pfx component subdir source),
                    .stat (publishedFile r pfx component subdir source filename)]⟩
              | .error _ =>
                match os.Link src (publishedFile r pfx component subdir source filename) st1 with
                | (err, st2) =>
                  ⟨.ret (relPathOf component subdir source filename, err), st2,
                    [.mkdirAll (publishedDir r pfx component subdir source),
                      .stat (publishedFile r pfx component subdir source filename),
                      .link src (publishedFile r pfx component subdir source filename)]⟩ := by
  rfl

/-- On the operating system of the file-system model `LinkFromPoolOn` is
`LinkFromPool`. -/
theorem LinkFromPoolOn_modelOs (r : Repository) (fs : FS)
    (pfx component filename hashMD5 source : Str) :
    (LinkFromPoolOn modelOs r fs pfx component filename hashMD5 source).out =
      (LinkFromPool r fs pfx component filename hashMD5 source).out ∧
    (LinkFromPoolOn modelOs r fs pfx component filename hashMD5 source).st =
      (LinkFromPool r fs pfx component filename hashMD5 source).fs ∧
    (LinkFromPoolOn modelOs r fs pfx component filename hashMD5 source).calls =
      (LinkFromPool r fs pfx component filename hashMD5 source).calls := by
  rw [LinkFromPoolOn_eq, LinkFromPool_eq]
  cases hP : PoolPath r filename hashMD5 with
  | fault => exact ⟨rfl, rfl, rfl⟩
  | ret a =>
    obtain ⟨src, e⟩ := a
    cases e with
    | some err => exact ⟨rfl, rfl, rfl⟩
    | none =>
      dsimp only
      by_cases hlen : source.length < 2
      · rw [if_pos hlen, if_pos hlen]
        exact ⟨rfl, rfl, rfl⟩
      · rw [if_neg hlen, if_neg hlen]
        cases hb : bucket source with
        | none => exact ⟨rfl, rfl, rfl⟩
        | some subdir =>
          dsimp only [modelOs]
          cases hm : MkdirAll (publishedDir r pfx component subdir source) fs with
          | mk e1 fs1 =>
            cases e1 with
            | some err => exact ⟨rfl, rfl, rfl⟩
            | none =>
              dsimp only
              cases hst : Stat (publishedFile r pfx component subdir source filename) fs1 with
              | ok n => exact ⟨rfl, rfl, rfl⟩
              | error err =>
                dsimp only
                cases hl : Link src (publishedFile r pfx component subdir source filename) fs1 with
                | mk e2 fs2 => exact ⟨rfl, rfl, rfl⟩

/-- C14 (counterexample): the probe fails with `EACCES`, a reason other than
the destination not existing, and `LinkFromPool` does not return that error: it
goes on to `os.Link` and returns the error of `os.Link`. -/
theorem LinkFromPool_stat_error_counterexample :
    deniedOs.Stat "/srv/public/squeeze/pool/main/libf/libfoo/libfoo_1.0.deb".toList () =
      .error (.pathError "stat".toList
        "/srv/public/squeeze/pool/main/libf/libfoo/libfoo_1.0.deb".toList .EACCES) ∧
    (LinkFromPoolOn deniedOs ⟨"/srv".toList⟩ () "squeeze".toList "main".toList
        "libfoo_1.0.deb".toList digest "libfoo".toList).out =
      .ret ("pool/main/libf/libfoo/libfoo_1.0.deb".toList,
        some (.linkError "link".toList "/srv/pool/01/23/libfoo_1.0.deb".toList
          "/srv/public/squeeze/pool/main/libf/libfoo/libfoo_1.0.deb".toList .EACCES)) ∧
    (LinkFromPoolOn deniedOs ⟨"/srv".toList⟩ () "squeeze".toList "main".toList
        "libfoo_1.0.deb".toList digest "libfoo".toList).out ≠
      .ret ("pool/main/libf/libfoo/libfoo_1.0.deb".toList,
        some (.pathError "stat".toList
          "/srv/public/squeeze/pool/main/libf/libfoo/libfoo_1.0.deb".toList .EACCES)) ∧
    (LinkFromPoolOn deniedOs ⟨"/srv".toList⟩ () "squeeze".toList "main".toList
        "libfoo_1.0.deb".toList digest "libfoo".toList).calls =
      [.mkdirAll "/srv/public/squeeze/pool/main/libf/libfoo".toList,
        .stat "/srv/public/squeeze/pool/main/libf/libfoo/libfoo_1.0.deb".toList,
        .link "/srv/pool/01/23/libfoo_1.0.deb".toList
          "/srv/public/squeeze/pool/main/libf/libfoo/libfoo_1.0.deb".toList] :=
  ⟨rfl, by decide, by decide, by decide⟩

/-- C14 (amended): whatever the `os` calls answer, once `PoolPath` has given the
pool path and the source has a bucket: an error of the directory creation is
returned unchanged with an empty path; when the probe finds an entry the
relative path is returned with no error; and when the probe returns an error,
of any kind, that error is dropped and `LinkFromPool` returns the relative path
with the result of `os.Link` unchanged, its error or `nil`. -/
theorem LinkFromPoolOn_errors {σ : Type} (os : OsCalls σ) (r : Repository) (st : σ)
    (pfx component filename hashMD5 source src subdir : Str)
    (hP : PoolPath r filename hashMD5 = .ret (src, none)) (hlen : 2 ≤ source.length)
    (hb : bucket source = some subdir) :
    (∀ e st1, os.MkdirAll (publishedDir r pfx component subdir source) st = (some e, st1) →
      (LinkFromPoolOn os r st pfx component filename hashMD5 source).out =
        .ret ([], some e)) ∧
    (∀ st1 n, os.MkdirAll (publishedDir r pfx component subdir source) st = (none, st1) →
      os.Stat (publishedFile r pfx component subdir source filename) st1 = .ok n →
      (LinkFromPoolOn os r st pfx component filename hashMD5 source).out =
        .ret (relPathOf component subdir source filename, none)) ∧
    (∀ st1 es res st2,
      os.MkdirAll (publishedDir r pfx component subdir source) st = (none, st1) →
      os.Stat (publishedFile r pfx component subdir source filename) st1 = .error es →
      os.Link src (publishedFile r pfx component subdir source filename) st1 = (res, st2) →
      (LinkFromPoolOn os r st pfx component filename hashMD5 source).out =
        .ret (relPathOf component subdir source filename, res)) := by
  have hl : ¬ source.length < 2 := by omega
  refine ⟨?_, ?_, ?_⟩
  · intro e st1 hm
    rw [LinkFromPoolOn_eq, hP]
    dsimp only
    rw [if_neg hl, hb]
    dsimp only
    rw [hm]
  · intro st1 n hm hs
    rw [LinkFromPoolOn_eq, hP]
    dsimp only
    rw [if_neg hl, hb]
    dsimp only
    rw [hm]
    dsimp only
    rw [hs]
  · intro st1 es res st2 hm hs hk
    rw [LinkFromPoolOn_eq, hP]
    dsimp only
    rw [if_neg hl, hb]
    dsimp only
    rw [hm]
    dsimp only
    rw [hs]
    dsimp only
    exact congrArg (fun x => Outcome.ret (relPathOf component subdir source filename, x))
      (congrArg Prod.fst hk)

/-- C14 (witness): when the probe and the link both fail with `EACCES`, the
error of `os.Link` is what `LinkFromPool` returns, with the relative path. -/
theorem LinkFromPoolOn_errors_witness :
    (LinkFromPoolOn deniedOs ⟨"/srv".toList⟩ () "squeeze".toList "main".toList
        "libfoo_1.0.deb".toList digest "libfoo".toList).out =
      .ret (relPathOf "main".toList "libf".toList "libfoo".toList "libfoo_1.0.deb".toList,
        some (.linkError "link".toList "/srv/pool/01/23/libfoo_1.0.deb".toList
          (publishedFile ⟨"/srv".toList⟩ "squeeze".toList "main".toList "libf".toList
            "libfoo".toList "libfoo_1.0.deb".toList) .EACCES)) :=
  (LinkFromPoolOn_errors deniedOs ⟨"/srv".toList⟩ () "squeeze".toList "main".toList
    "libfoo_1.0.deb".toList digest "libfoo".toList "/srv/pool/01/23/libfoo_1.0.deb".toList
    "libf".toList (by decide) (by decide) (by decide)).2.2 () _ _ () rfl rfl rfl

/-! ## `Clean` on a path followed by one more element -/

theorem takeWhile_append_sep (a rest : Str) :
    (a ++ '/' :: rest).takeWhile notSeparator = a.takeWhile notSeparator := by
  induction a with
  | nil => simp [notSeparator, IsPathSeparator]
  | cons x a ih =>
    by_cases hx : notSeparator x = true
    · simp only [List.cons_append, List.takeWhile_cons, hx, if_true, ih]
    · simp only [List.cons_append, List.takeWhile_cons, hx, if_false]
      rfl

theorem dropWhile_append_sep (a rest : Str) :
    (a ++ '/' :: rest).dropWhile notSeparator = a.dropWhile notSeparator ++ '/' :: rest := by
  induction a with
  | nil => simp [notSeparator, IsPathSeparator]
  | cons x a ih =>
    by_cases hx : notSeparator x = true
    · simp only [List.cons_append, List.dropWhile_cons, hx, if_true, ih]
    · simp only [List.cons_append, List.dropWhile_cons, hx, if_false]
      rfl

theorem cleanLoop_nil (rooted : Bool) (fuel : Nat) (out : Str) (dotdot : Nat) :
    cleanLoop rooted fuel [] out dotdot = out := by
  cases fuel <;> simp [cleanLoop]

/-- The loop of `Clean` on a path followed by a separator and an ordinary
element: the element is appended to what the loop writes for the path. -/
theorem cleanLoop_snoc (rooted : Bool) (n : Str) (hn : normalElem n) (k fuel : Nat) :
    ∀ (X out : Str) (dotdot : Nat), X.length ≤ fuel →
      cleanLoop rooted (fuel + k + 2) (X ++ '/' :: n) out dotdot =
        withSlash rooted (cleanLoop rooted fuel X out dotdot) ++ n := by
  have hbase : ∀ (f : Nat) (out : Str) (dotdot : Nat),
      cleanLoop rooted (f + 2) ('/' :: n) out dotdot = withSlash rooted out ++ n := by
    intro f out dotdot
    have h1 : cleanLoop rooted (f + 2) ('/' :: n) out dotdot =
        cleanLoop rooted (f + 1) n out dotdot := by
      simp [cleanLoop, IsPathSeparator]
    have h2 := cleanLoop_elem rooted f n [] out dotdot hn (Or.inl rfl)
    rw [List.append_nil] at h2
    rw [h1, h2, cleanLoop_nil]
  induction fuel with
  | zero =>
    intro X out dotdot hX
    have hnil : X = [] := List.length_eq_zero.1 (Nat.le_zero.1 hX)
    subst hnil
    rw [List.nil_append, hbase, cleanLoop_nil]
  | succ f ih =>
    intro X out dotdot hX
    cases X with
    | nil => rw [List.nil_append, hbase, cleanLoop_nil]
    | cons c t =>
      simp only [List.length_cons, Nat.add_le_add_iff_right] at hX
      have htail : t.tail.length ≤ f := by
        have : t.tail.length ≤ t.length := by simp
        omega
      have hfuel : f + 1 + k + 2 = (f + k + 2) + 1 := by omega
      rw [List.cons_append, hfuel, cleanLoop, cleanLoop]
      by_cases hc : IsPathSeparator c = true
      · rw [if_pos hc, if_pos hc]
        exact ih t out dotdot hX
      · rw [if_neg hc, if_neg hc]
        have hnsep : notSeparator c = true := by simpa [notSeparator] using hc
        have hdrop : ((c :: t).dropWhile notSeparator).length ≤ f := by
          rw [List.dropWhile_cons_of_pos hnsep]
          exact Nat.le_trans (dropWhile_notSeparator_length t) hX
        have htw : (c :: (t ++ '/' :: n)).takeWhile notSeparator =
            (c :: t).takeWhile notSeparator := by
          rw [← List.cons_append, takeWhile_append_sep]
        have hdw : (c :: (t ++ '/' :: n)).dropWhile notSeparator =
            (c :: t).dropWhile notSeparator ++ '/' :: n := by
          rw [← List.cons_append, dropWhile_append_sep]
        rw [htw, hdw]
        cases t with
        | nil =>
          simp only [List.nil_append, List.head?_cons, List.tail_cons, List.head?_nil,
            List.tail_nil, reduceCtorEq, or_true, true_or, and_true, and_false, false_and,
            if_false, Option.some.injEq]
          by_cases h2 : c = '.'
          · simp only [h2, if_true]
            have := ih [] out dotdot (by simp)
            simpa using this
          · simp only [h2, if_false]
            have := ih (([c] : Str).dropWhile notSeparator) (withSlash rooted out ++
              ([c] : Str).takeWhile notSeparator) dotdot (by simpa using hdrop)
            simpa [withSlash] using this
        | cons d t2 =>
          cases t2 with
          | nil =>
            simp only [List.cons_append, List.nil_append, List.head?_cons, List.tail_cons,
              List.head?_nil, List.tail_nil, reduceCtorEq, or_true, true_or, and_true,
              false_or, Option.some.injEq]
            split
            · exact ih _ out dotdot hX
            · split
              · split
                · exact ih [] _ dotdot (by simp)
                · split
                  · exact ih [] _ _ (by simp)
                  · exact ih [] _ dotdot (by simp)
              · exact ih _ _ dotdot hdrop
          | cons e t3 =>
            simp only [List.cons_append, List.head?_cons, List.tail_cons, reduceCtorEq,
              false_or, Option.some.injEq]
            split
            · exact ih _ out dotdot hX
            · split
              · split
                · exact ih (e :: t3) _ dotdot (by simpa using htail)
                · split
                  · exact ih (e :: t3) _ _ (by simpa using htail)
                  · exact ih (e :: t3) _ dotdot (by simpa using htail)
              · exact ih _ _ dotdot hdrop

theorem Clean_eq_cleanBuf (X : Str) :
    Clean X = if cleanBuf X = [] then ['.'] else cleanBuf X := by
  cases X with
  | nil => rfl
  | cons c t =>
    by_cases hc : IsPathSeparator c = true
    · simp only [Clean, cleanBuf, hc, if_true]
    · simp only [Clean, cleanBuf, hc, if_false]

/-- The result of `Clean` on a non-empty path followed by a separator and an
ordinary element. -/
theorem Clean_snoc (X n : Str) (hX : X ≠ []) (hn : normalElem n) :
    Clean (X ++ '/' :: n) = withSlash (isRooted X) (cleanBuf X) ++ n := by
  have hne : n ≠ [] := hn.1
  have hpos : 0 < n.length := List.length_pos.2 hne
  cases X with
  | nil => exact absurd rfl hX
  | cons c t =>
    by_cases hc : IsPathSeparator c = true
    · have hlen : (c :: (t ++ '/' :: n)).length = t.length + n.length + 2 := by
        simp only [List.length_cons, List.length_append]; omega
      have h2 : cleanLoop true (c :: t).length t ['/'] 1 = cleanLoop true t.length t ['/'] 1 :=
        cleanLoop_fuel true _ _ _ _ _ (by simp) (Nat.le_refl _)
      simp only [List.cons_append, Clean, cleanBuf, isRooted, hc, if_true]
      rw [hlen, cleanLoop_snoc true n hn n.length t.length t ['/'] 1 (Nat.le_refl _), h2]
      simp [hne]
    · have hlen : (c :: (t ++ '/' :: n)).length = (c :: t).length + (n.length - 1) + 2 := by
        simp only [List.length_cons, List.length_append]; omega
      have hc2 : IsPathSeparator c = false := by simpa using hc
      simp only [List.cons_append, Clean, cleanBuf, isRooted, hc2, Bool.false_eq_true, if_false]
      rw [hlen, ← List.cons_append,
        cleanLoop_snoc false n hn (n.length - 1) (c :: t).length (c :: t) [] 0 (Nat.le_refl _)]
      simp [hne]

theorem backtrack_ge (buf : Str) (dotdot : Nat) : ∀ w, dotdot ≤ w → dotdot ≤ backtrack buf dotdot w := by
  intro w
  induction w with
  | zero => intro h; simpa [backtrack] using h
  | succ w ih =>
    intro h
    rw [backtrack]
    split
    · rename_i hc
      exact ih (by omega)
    · exact h

theorem head?_take_pos (out : Str) (k : Nat) (hk : 1 ≤ k) : (out.take k).head? = out.head? := by
  cases out with
  | nil => simp
  | cons a t =>
    obtain ⟨j, rfl⟩ : ∃ j, k = j + 1 := ⟨k - 1, by omega⟩
    simp

theorem head?_append_of_head? (out s : Str) (c : Char) (h : out.head? = some c) :
    (out ++ s).head? = some c := by
  cases out with
  | nil => simp at h
  | cons a t => simpa using h

/-- On a rooted path the loop of `Clean` keeps the leading separator. -/
theorem cleanLoop_rooted_head (fuel : Nat) : ∀ (rest out : Str) (dotdot : Nat),
    out.head? = some '/' → 1 ≤ dotdot →
    (cleanLoop true fuel rest out dotdot).head? = some '/' := by
  induction fuel with
  | zero => intro rest out dotdot h _; simpa [cleanLoop] using h
  | succ fuel ih =>
    intro rest out dotdot h hd
    cases rest with
    | nil => simpa [cleanLoop] using h
    | cons c t =>
      rw [cleanLoop]
      split
      · exact ih _ _ _ h hd
      · split
        · exact ih _ _ _ h hd
        · split
          · split
            · rename_i hlt
              apply ih _ _ _ _ hd
              rw [head?_take_pos _ _ (Nat.le_trans hd (backtrack_ge out dotdot _ (by omega)))]
              exact h
            · simp only [Bool.true_eq_false, if_false]
              exact ih _ _ _ h hd
          · apply ih _ _ _ _ hd
            split
            · rw [List.append_assoc]
              exact head?_append_of_head? _ _ _ h
            · exact head?_append_of_head? _ _ _ h

theorem cleanBuf_rooted_head (X : Str) (h : isRooted X = true) :
    (cleanBuf X).head? = some '/' := by
  cases X with
  | nil => simp [isRooted] at h
  | cons c t =>
    simp only [isRooted] at h
    simp only [cleanBuf, h, if_true]
    exact cleanLoop_rooted_head _ _ _ _ rfl (Nat.le_refl _)

/-! ## The parent directory of a path that ends in an ordinary element -/

theorem dropWhile_append_elem (s rest : Str) (hs : ∀ c ∈ s, c ≠ '/') :
    (s ++ rest).dropWhile notSeparator = rest.dropWhile notSeparator := by
  induction s with
  | nil => rfl
  | cons a s ih =>
    have ha : notSeparator a = true := (notSeparator_iff a).2 (hs a (List.mem_cons_self _ _))
    rw [List.cons_append, List.dropWhile_cons_of_pos ha]
    exact ih (fun c hc => hs c (List.mem_cons_of_mem _ hc))

theorem rdropWhile_eq (p : Char → Bool) (l : Str) :
    l.rdropWhile p = (l.reverse.dropWhile p).reverse := rfl

theorem parentDir_snoc (P n : Str) (hn : normalElem n) :
    parentDir (P ++ '/' :: n) = if P = [] then none else some P := by
  obtain ⟨hne, hsep, -, -⟩ := hn
  have hrev : ∀ c ∈ n.reverse, c ≠ '/' := fun c hc => hsep c (List.mem_reverse.1 hc)
  have h1 : (P ++ '/' :: n).rdropWhile IsPathSeparator = P ++ '/' :: n := by
    rw [List.rdropWhile_eq_self_iff]
    intro hl
    have hlast : (P ++ '/' :: n).getLast hl = n.getLast hne := by
      rw [List.getLast_append_of_ne_nil (by simp), List.getLast_cons hne]
    rw [hlast]
    have := hsep _ (List.getLast_mem hne)
    simpa [IsPathSeparator] using this
  have h2 : (P ++ '/' :: n).rdropWhile notSeparator = P ++ ['/'] := by
    rw [rdropWhile_eq]
    have : (P ++ '/' :: n).reverse = n.reverse ++ '/' :: P.reverse := by simp
    rw [this, dropWhile_elem n.reverse ('/' :: P.reverse) hrev (Or.inr rfl)]
    simp
  unfold parentDir
  simp only [h1, h2, List.length_append, List.length_singleton]
  by_cases hP : P = []
  · simp [hP]
  · have hpos : 0 < P.length := List.length_pos.2 hP
    rw [if_pos (by omega), if_neg hP]
    simp

theorem parentDir_short (x : Str) (n : Str) (hx : x.length ≤ 1) (hn : normalElem n) :
    parentDir (x ++ n) = none := by
  obtain ⟨hne, hsep, -, -⟩ := hn
  have hrev : ∀ c ∈ n.reverse, c ≠ '/' := fun c hc => hsep c (List.mem_reverse.1 hc)
  have h1 : (x ++ n).rdropWhile IsPathSeparator = x ++ n := by
    rw [List.rdropWhile_eq_self_iff]
    intro hl
    have hlast : (x ++ n).getLast hl = n.getLast hne := by
      rw [List.getLast_append_of_ne_nil hne]
    rw [hlast]
    have := hsep _ (List.getLast_mem hne)
    simpa [IsPathSeparator] using this
  have h2 : ((x ++ n).rdropWhile notSeparator).length ≤ 1 := by
    rw [rdropWhile_eq]
    have : (x ++ n).reverse = n.reverse ++ x.reverse := by simp
    rw [this, List.length_reverse]
    have hle : ((n.reverse ++ x.reverse).dropWhile notSeparator).length ≤ x.reverse.length := by
      have hd : (n.reverse ++ x.reverse).dropWhile notSeparator =
          x.reverse.dropWhile notSeparator := by
        exact dropWhile_append_elem n.reverse x.reverse hrev
      rw [hd]
      exact dropWhile_notSeparator_length _
    simpa using Nat.le_trans hle (by simpa using hx)
  unfold parentDir
  simp only [h1]
  rw [if_neg (by omega)]

/-! ## `MkDir` and `CreateFile` -/

/-- The paths `MkDir(d)` and `CreateFile(d/n)` hand to the `os` calls are the
clean forms of one joined path and of that path followed by `/n`. -/
theorem Join_public (root d n : Str) :
    ∃ X, X ≠ [] ∧ Join [root, "public".toList, d] = Clean X ∧
      Join [root, "public".toList, d ++ '/' :: n] = Clean (X ++ '/' :: n) := by
  by_cases hr : root = []
  · subst hr
    refine ⟨"public".toList ++ ['/'] ++ d, by simp, ?_, ?_⟩
    · unfold Join
      rw [List.dropWhile_cons_of_pos (by decide), List.dropWhile_cons_of_neg (by decide)]
      rfl
    · unfold Join
      rw [List.dropWhile_cons_of_pos (by decide), List.dropWhile_cons_of_neg (by decide)]
      simp [stringsJoin, List.append_assoc]
  · refine ⟨root ++ ['/'] ++ ("public".toList ++ ['/'] ++ d), by simp [hr], ?_, ?_⟩
    · unfold Join
      rw [List.dropWhile_cons_of_neg (by simpa using hr)]
      cases root with
      | nil => exact absurd rfl hr
      | cons a t => rfl
    · unfold Join
      rw [List.dropWhile_cons_of_neg (by simpa using hr)]
      cases root with
      | nil => exact absurd rfl hr
      | cons a t => simp [stringsJoin, List.append_assoc]

/-- The directory holding `Clean(X/n)` is `Clean(X)`, or it is the root or the
working directory, which have no name of their own in `parentDir`. -/
theorem parentDir_Clean_snoc (X n : Str) (hX : X ≠ []) (hn : normalElem n) :
    (parentDir (Clean (X ++ '/' :: n)) = some (Clean X)) ∨
    (parentDir (Clean (X ++ '/' :: n)) = none ∧ (Clean X = ['/'] ∨ Clean X = ['.'])) := by
  rw [Clean_snoc X n hX hn, Clean_eq_cleanBuf]
  cases hroot : isRooted X with
  | true =>
    have hhead := cleanBuf_rooted_head X hroot
    have hB : cleanBuf X ≠ [] := by
      intro h; rw [h] at hhead; simp at hhead
    by_cases h1 : (cleanBuf X).length = 1
    · right
      have hw : withSlash true (cleanBuf X) = cleanBuf X := by
        unfold withSlash
        rw [if_neg (by simp [h1])]
      rw [hw, if_neg hB]
      refine ⟨parentDir_short _ n (by omega) hn, Or.inl ?_⟩
      cases hb : cleanBuf X with
      | nil => exact absurd hb hB
      | cons a t =>
        rw [hb] at h1 hhead
        simp only [List.length_cons, Nat.add_left_eq_self, List.length_eq_zero] at h1
        simp only [List.head?_cons, Option.some.injEq] at hhead
        rw [h1, hhead]
    · left
      have hw : withSlash true (cleanBuf X) = cleanBuf X ++ ['/'] := by
        unfold withSlash
        rw [if_pos (Or.inl ⟨rfl, h1⟩)]
      rw [hw, if_neg hB, List.append_assoc, List.singleton_append, parentDir_snoc _ n hn,
        if_neg hB]
  | false =>
    by_cases h0 : cleanBuf X = []
    · right
      have hw : withSlash false (cleanBuf X) = cleanBuf X := by
        unfold withSlash
        rw [if_neg (by simp [h0])]
      rw [hw, if_pos h0, h0]
      exact ⟨parentDir_short [] n (by simp) hn, Or.inr rfl⟩
    · left
      have hl : (cleanBuf X).length ≠ 0 := fun h => h0 (List.length_eq_zero.1 h)
      have hw : withSlash false (cleanBuf X) = cleanBuf X ++ ['/'] := by
        unfold withSlash
        rw [if_pos (Or.inr ⟨rfl, hl⟩)]
      rw [hw, if_neg h0, List.append_assoc, List.singleton_append, parentDir_snoc _ n hn,
        if_neg h0]

/-- When the directory holding `name` is a directory, or is the root or the
working directory, `Create` succeeds unless `name` is a directory. -/
theorem Create_ok (name : Str) (ino : Nat) (fs : FS)
    (hpar : parentDir name = none ∨ ∃ p, parentDir name = some p ∧ fs.entry p = some .dir)
    (hnd : fs.entry name ≠ some .dir) :
    ∃ i fs2, Create name ino fs = (.ok i, fs2) := by
  have hopen : ∃ i fs2, (match fs.entry name with
      | some .dir => ((.error (.pathError "open".toList name .EISDIR), fs) : Except GoError Nat × FS)
      | some (.file i) =>
        (.ok i, { fs with content := fun j => if j = i then [] else fs.content j })
      | none =>
        (.ok ino,
          { entry := fun q => if q = name then some (.file ino) else fs.entry q
            content := fun j => if j = ino then [] else fs.content j })) = (.ok i, fs2) := by
    cases he : fs.entry name with
    | none => exact ⟨_, _, rfl⟩
    | some nd =>
      cases nd with
      | dir => exact absurd he hnd
      | file i => exact ⟨_, _, rfl⟩
  unfold Create
  rcases hpar with h | ⟨p, h1, h2⟩
  · simp only [h]
    exact hopen
  · simp only [h1, h2]
    exact hopen

theorem Create_missing_parent (name p : Str) (ino : Nat) (fs : FS)
    (hpar : parentDir name = some p) (hp : fs.entry p = none) :
    Create name ino fs = (.error (.pathError "open".toList name .ENOENT), fs) := by
  unfold Create
  simp only [hpar, hp]

theorem Create_dir (name : Str) (ino : Nat) (fs : FS) (hd : fs.entry name = some .dir) :
    ∃ e, Create name ino fs = (.error e, fs) := by
  unfold Create
  simp only [hd]
  split
  · exact ⟨_, rfl⟩
  · split
    · exact ⟨_, rfl⟩
    · exact ⟨_, rfl⟩
    · exact ⟨_, rfl⟩

/-- C15 (counterexample): `MkDir("dists")` succeeds and `CreateFile` of
`dists/Release` then fails, because `/srv/public/dists/Release` is a directory;
and after `MkDir("dists")` on the empty state `CreateFile` of `dists/..` fails,
the single segment `..` naming the directory `/srv/public`. -/
theorem MkDir_CreateFile_counterexample :
    (MkDir ⟨"/srv".toList⟩ "dists".toList fsReleaseDir).1 = none ∧
    (CreateFile ⟨"/srv".toList⟩ "dists/Release".toList 7
        (MkDir ⟨"/srv".toList⟩ "dists".toList fsReleaseDir).2).1 =
      .error (.pathError "open".toList "/srv/public/dists/Release".toList .EISDIR) ∧
    (MkDir ⟨"/srv".toList⟩ "dists".toList fsEmpty).1 = none ∧
    (CreateFile ⟨"/srv".toList⟩ "dists/..".toList 7
        (MkDir ⟨"/srv".toList⟩ "dists".toList fsEmpty).2).1 =
      .error (.pathError "open".toList "/srv/public".toList .EISDIR) :=
  ⟨by decide, rfl, by decide, rfl⟩

/-- C15 (amended): for every root, every directory path `d` and every ordinary
file name `n` (non-empty, without separator, not `.` or `..`): `MkDir(d)` and
`CreateFile(d/n)` resolve their argument with the same `filepath.Join(root,
"public", ·)`, so the directory holding the file is the directory `MkDir`
makes; after `MkDir(d)` succeeds, `CreateFile(d/n)` succeeds unless the file
path is already a directory, in which case it fails; and on a state where the
directory of `MkDir(d)`, other than `/` and `.`, has no entry, `CreateFile(d/n)`
fails with the `*PathError` for `ENOENT` and changes nothing. -/
theorem MkDir_CreateFile (r : Repository) (d n : Str) (ino : Nat) (fs : FS)
    (hn : normalElem n) :
    (parentDir (Join [r.RootPath, "public".toList, d ++ '/' :: n]) =
        some (Join [r.RootPath, "public".toList, d]) ∨
      parentDir (Join [r.RootPath, "public".toList, d ++ '/' :: n]) = none) ∧
    (∀ fs1, MkDir r d fs = (none, fs1) →
      (fs1.entry (Join [r.RootPath, "public".toList, d ++ '/' :: n]) ≠ some .dir →
        ∃ i fs2, CreateFile r (d ++ '/' :: n) ino fs1 = (.ok i, fs2)) ∧
      (fs1.entry (Join [r.RootPath, "public".toList, d ++ '/' :: n]) = some .dir →
        ∃ e, CreateFile r (d ++ '/' :: n) ino fs1 = (.error e, fs1))) ∧
    (fs.entry (Join [r.RootPath, "public".toList, d]) = none →
      Join [r.RootPath, "public".toList, d] ≠ ['/'] →
      Join [r.RootPath, "public".toList, d] ≠ ['.'] →
      CreateFile r (d ++ '/' :: n) ino fs =
        (.error (.pathError "open".toList (Join [r.RootPath, "public".toList, d ++ '/' :: n])
          .ENOENT), fs)) := by
  obtain ⟨X, hX, hJ1, hJ2⟩ := Join_public r.RootPath d n
  have hpar := parentDir_Clean_snoc X n hX hn
  rw [← hJ1, ← hJ2] at hpar
  refine ⟨?_, ?_, ?_⟩
  · rcases hpar with h | ⟨h, -⟩
    · exact Or.inl h
    · exact Or.inr h
  · intro fs1 hmk
    have hdir : fs1.entry (Join [r.RootPath, "public".toList, d]) = some .dir :=
      MkdirAll_ok _ fs fs1 hmk
    refine ⟨fun hnd => ?_, fun hd => Create_dir _ ino fs1 hd⟩
    apply Create_ok _ ino fs1 _ hnd
    rcases hpar with h | ⟨h, -⟩
    · exact Or.inr ⟨_, h, hdir⟩
    · exact Or.inl h
  · intro hnone h1 h2
    rcases hpar with h | ⟨-, h | h⟩
    · exact Create_missing_parent _ _ ino fs h hnone
    · exact absurd h h1
    · exact absurd h h2

/-- C15 (witness): on the empty state `MkDir("dists/squeeze")` followed by
`CreateFile("dists/squeeze/Release")` opens a new file, and without the `MkDir`
the `CreateFile` fails. -/
theorem MkDir_CreateFile_witness :
    (∃ i fs2, CreateFile ⟨"/srv".toList⟩ ("dists/squeeze".toList ++ '/' :: "Release".toList) 7
        (MkDir ⟨"/srv".toList⟩ "dists/squeeze".toList fsEmpty).2 = (.ok i, fs2)) ∧
    CreateFile ⟨"/srv".toList⟩ ("dists/squeeze".toList ++ '/' :: "Release".toList) 7 fsEmpty =
      (.error (.pathError "open".toList
        (Join ["/srv".toList, "public".toList, "dists/squeeze".toList ++ '/' :: "Release".toList])
        .ENOENT), fsEmpty) :=
  ⟨((MkDir_CreateFile ⟨"/srv".toList⟩ "dists/squeeze".toList "Release".toList 7 fsEmpty
      (by decide)).2.1 _ (Prod.ext (by decide) rfl)).1 (by decide),
    (MkDir_CreateFile ⟨"/srv".toList⟩ "dists/squeeze".toList "Release".toList 7 fsEmpty
      (by decide)).2.2 (by decide) (by decide) (by decide)⟩

end Debian
